import Mathlib

/-!
Shallow embedding of the enumap library core (enumap.py): the strict
Enumap and the SparseEnumap field-resolution engines, the per-field
casting step, the type and default registries, and the map/tuple output
operations, together with the structured error taxonomy of the spec.

Python dicts with string keys are modelled as insertion-ordered
association lists; every dict the library builds has unique keys
(they start from zipping the distinct member names and are updated
key by key).  Exceptions are modelled with `Except` and the `Err`
inductive.  Per-field cast callables are modelled as `V → Except String V`
(the `String` is the message of the exception the callable raised).
-/

namespace EnumapModel

/-- A Python dict with string keys: an insertion-ordered association list. -/
abbrev Assoc (V : Type) : Type := List (String × V)

/-- Dict lookup (`d.get(k)`), first matching entry. -/
def alookup {V : Type} : Assoc V → String → Option V
  | [], _ => none
  | (k, v) :: rest, key => if k = key then some v else alookup rest key

/-- The key list of a dict, in insertion order. -/
def keysOf {V : Type} (m : Assoc V) : List String := m.map Prod.fst

/-- Python `k in d`. -/
def hasKey {V : Type} (m : Assoc V) (k : String) : Bool := (alookup m k).isSome

/-- Python `d[k] = v`: overwrite in place when the key is present
(keeping its position, as CPython dicts do), append otherwise. -/
def dictSet {V : Type} (m : Assoc V) (k : String) (v : V) : Assoc V :=
  if hasKey m k then m.map (fun p => if p.1 = k then (p.1, v) else p)
  else m ++ [(k, v)]

/-- Python `d.update(kvs)`, applied entry by entry in order. -/
def dictUpdate {V : Type} (m : Assoc V) : Assoc V → Assoc V
  | [] => m
  | (k, v) :: rest => dictUpdate (dictSet m k v) rest

/-- `dict(zip(names, values), **named_values)`: `zip` truncates to the
shorter list, then the keyword entries override. -/
def mergeArgs {V : Type} (names : List String) (values : List V) (named : Assoc V) : Assoc V :=
  dictUpdate (names.zip values) named

/-- `set(mapping) == set(names)`. -/
def sameKeySet {V : Type} (m : Assoc V) (names : List String) : Bool :=
  names.all (fun n => hasKey m n) && (keysOf m).all (fun k => names.contains k)

/-- `set(names) - set(mapping)` (the missing keys). -/
def missingOf {V : Type} (names : List String) (m : Assoc V) : Finset String :=
  (names.filter (fun n => !hasKey m n)).toFinset

/-- `set(mapping) - set(names)` (the invalid keys). -/
def invalidOf {V : Type} (names : List String) (m : Assoc V) : Finset String :=
  ((keysOf m).filter (fun k => !names.contains k)).toFinset

/-- The structured error taxonomy of the spec, refined from the
`KeyError` / `TypeCastError` exceptions the source raises:

* `tooManyArguments`: more positional values than declared names
  (the message `expected N arguments, got M`);
* `schemaMismatch`: the strict-schema key mismatch message, which carries
  both the missing and the invalid key sets;
* `invalidKeys`: the sparse-schema key mismatch message, which carries the
  invalid key set only;
* `typeCastError`: a cast callable raised; carries the field name, the raw
  uncast value (`mapping.get(key)`), the runtime kind of that value
  (`type(value).__name__`) and the message of the underlying exception. -/
inductive Err (V : Type) : Type where
  | tooManyArguments (expected got : Nat)
  | schemaMismatch (missing invalid : Finset String)
  | invalidKeys (invalid : Finset String)
  | typeCastError (key : String) (value : Option V) (kind : String) (cause : String)
  deriving DecidableEq

/-- Equality of `Except` results is decidable when both components are:
used to evaluate the model on concrete inputs. -/
instance {E A : Type} [DecidableEq E] [DecidableEq A] : DecidableEq (Except E A) := fun a b =>
  match a, b with
  | .ok x, .ok y =>
    match decEq x y with
    | isTrue h => isTrue (by rw [h])
    | isFalse h => isFalse (fun hh => by cases hh; exact h rfl)
  | .ok _, .error _ => isFalse (fun hh => by cases hh)
  | .error _, .ok _ => isFalse (fun hh => by cases hh)
  | .error x, .error y =>
    match decEq x y with
    | isTrue h => isTrue (by rw [h])
    | isFalse h => isFalse (fun hh => by cases hh; exact h rfl)

/-- `_type_cast_items(mapping, types)`: yields `(key, types[key](mapping[key]))`
in the iteration order of `types`; the first failing entry raises
`TypeCastError` with the key, the raw value, its runtime kind (given here by
`kindOf`, standing for `type(value).__name__`) and the cause.  When the key is
absent from the mapping the `KeyError` of `mapping[key]` is caught by the same
handler, with `mapping.get(key)` equal to `None`. -/
def typeCastItems {V : Type} (kindOf : V → String) (mapping : Assoc V) :
    List (String × (V → Except String V)) → Except (Err V) (Assoc V)
  | [] => .ok []
  | (key, f) :: rest =>
    match alookup mapping key with
    | none => .error (.typeCastError key none "NoneType" key)
    | some v =>
      match f v with
      | .error e => .error (.typeCastError key (some v) (kindOf v) e)
      | .ok w =>
        match typeCastItems kindOf mapping rest with
        | .error err => .error err
        | .ok tail => .ok ((key, w) :: tail)

/-- `OrderedDict(((k, mapping[k]) for k in cls.names()))`: the by-name output,
materialized in declared-names order.  On every success path the mapping
covers all the names, so the lookups never fail. -/
def readout {V : Type} (names : List String) (m : Assoc V) : Assoc V :=
  names.filterMap (fun n => (alookup m n).map (fun v => (n, v)))

/-- `cls.tuple_class()(**mapping)`: the positional record output, one value
per declared name, in declared-names order.  On every success path the
mapping covers all the names, so the lookups never fail. -/
def tupleOut {V : Type} (names : List String) (m : Assoc V) : List V :=
  names.filterMap (alookup m)

/-- CPython function-call binding used by `tuple_class(*values, **named_values)`
when the fall-back field list is walked: positional values bind the leading
fields in order, keyword values bind the rest; an unbound field is a
`TypeError` (`none`). -/
def bindFields {V : Type} (named : Assoc V) : List String → List V → Option (List V)
  | [], _ => some []
  | f :: fs, [] =>
    match alookup named f with
    | none => none
    | some v => (bindFields named fs []).map (fun t => v :: t)
  | _ :: fs, v :: vs => (bindFields named fs vs).map (fun t => v :: t)

/-- `namedtuple.__new__` semantics for `tuple_class(*values, **named_values)`:
`TypeError` (modelled as `none`) when there are more positional values than
fields, a keyword key that is not a field, a keyword for a field already
bound positionally, or an unbound field. -/
def namedtupleNew {V : Type} (fields : List String) (values : List V) (named : Assoc V) :
    Option (List V) :=
  if values.length ≤ fields.length
      ∧ (∀ p ∈ named, fields.contains p.1)
      ∧ (∀ p ∈ named, ¬ (fields.take values.length).contains p.1)
  then bindFields named fields values
  else none

namespace Enumap

/-- `Enumap._raise_invalid_args`: too many positional arguments win, otherwise
the strict key-mismatch error carrying both the missing and the invalid sets
(both are reported even when one of them is empty). -/
def raiseInvalidArgs {V A : Type} (names : List String) (values : List V)
    (mapping : Assoc V) : Except (Err V) A :=
  if names.length < values.length then
    .error (.tooManyArguments names.length values.length)
  else
    .error (.schemaMismatch (missingOf names mapping) (invalidOf names mapping))

/-- `Enumap._make_checked_mapping`: merge positional and keyword values, then
require the key set to equal the declared names and the positional count not
to exceed them. -/
def makeCheckedMapping {V : Type} (names : List String) (values : List V)
    (named : Assoc V) : Except (Err V) (Assoc V) :=
  let mapping := mergeArgs names values named
  if sameKeySet mapping names = true ∧ values.length ≤ names.length then .ok mapping
  else raiseInvalidArgs names values mapping

/-- `Enumap._make_casted_mapping`: the checked mapping, updated with the
casted items of the `types` registry. -/
def makeCastedMapping {V : Type} (kindOf : V → String)
    (types : List (String × (V → Except String V)))
    (names : List String) (values : List V) (named : Assoc V) :
    Except (Err V) (Assoc V) :=
  match makeCheckedMapping names values named with
  | .error e => .error e
  | .ok mapping =>
    match typeCastItems kindOf mapping types with
    | .error e => .error e
    | .ok casted => .ok (dictUpdate mapping casted)

/-- `Enumap.map`. -/
def map {V : Type} (names : List String) (values : List V) (named : Assoc V) :
    Except (Err V) (Assoc V) :=
  (makeCheckedMapping names values named).map (readout names)

/-- `Enumap.map_casted`. -/
def mapCasted {V : Type} (kindOf : V → String)
    (types : List (String × (V → Except String V)))
    (names : List String) (values : List V) (named : Assoc V) :
    Except (Err V) (Assoc V) :=
  (makeCastedMapping kindOf types names values named).map (readout names)

/-- `Enumap.tuple`: first the `tuple_class(*values, **named_values)` fast
path; on its `TypeError` the checked mapping is built and read out field by
field. -/
def tuple {V : Type} (names : List String) (values : List V) (named : Assoc V) :
    Except (Err V) (List V) :=
  match namedtupleNew names values named with
  | some t => .ok t
  | none => (makeCheckedMapping names values named).map (tupleOut names)

/-- `Enumap.tuple_casted`. -/
def tupleCasted {V : Type} (kindOf : V → String)
    (types : List (String × (V → Except String V)))
    (names : List String) (values : List V) (named : Assoc V) :
    Except (Err V) (List V) :=
  (makeCastedMapping kindOf types names values named).map (tupleOut names)

end Enumap

namespace SparseEnumap

/-- `SparseEnumap._raise_invalid_args`: too many positional arguments win,
otherwise the sparse key-mismatch error carrying the invalid set only. -/
def raiseInvalidArgs {V A : Type} (names : List String) (values : List V)
    (mapping : Assoc V) : Except (Err V) A :=
  if names.length < values.length then
    .error (.tooManyArguments names.length values.length)
  else
    .error (.invalidKeys (invalidOf names mapping))

/-- `missing = names_set - set(mapping); mapping.update((k, defaults[k]) for k
in missing)`.  `SparseEnumap.defaults()` always returns a mapping with every
declared name as a key, so the `defaults[k]` lookups never fail; the
`filterMap` here records that totality instead of modelling the impossible
`KeyError`. -/
def fillFromDefaults {V : Type} (defaults : Assoc V) (names : List String)
    (mapping : Assoc V) : Assoc V :=
  dictUpdate mapping ((names.filter (fun n => !hasKey mapping n)).filterMap
    (fun k => (alookup defaults k).map (fun v => (k, v))))

/-- `SparseEnumap._make_checked_mapping`: merge positional and keyword values,
fill the missing names from `defaults`, then require no invalid keys and no
excess positional values.  `defaults` is empty only for a schema with no
members (`defaults()` otherwise returns a mapping over every name); in that
dead branch the source pads the names beyond `values` with `None` through
`zip_longest`.  Extra values would enter that dict under a single `None` key,
but any such call fails the length check and reports too-many-arguments
without reading the mapping, so only the name padding is modelled. -/
def makeCheckedMapping {V : Type} (noneV : V) (defaults : Assoc V)
    (names : List String) (values : List V) (named : Assoc V) :
    Except (Err V) (Assoc V) :=
  if defaults.isEmpty then
    let mapping := dictUpdate
      (names.zip values ++ (names.drop values.length).map (fun n => (n, noneV))) named
    if sameKeySet mapping names = true ∧ values.length ≤ names.length then .ok mapping
    else raiseInvalidArgs names values mapping
  else
    let mapping := fillFromDefaults defaults names (mergeArgs names values named)
    if sameKeySet mapping names = true ∧ values.length ≤ names.length then .ok mapping
    else raiseInvalidArgs names values mapping

/-- The keys supplied to a construction call (positionally or by keyword):
`present = set(dict(zip(names, values), **named_values))`. -/
def presentKeys {V : Type} (names : List String) (values : List V) (named : Assoc V) :
    List String :=
  keysOf (mergeArgs names values named)

/-- `relevant_types = {key: types[key] for key in present_typed}`, with
`order` standing for the iteration order of the `present_typed` set. -/
def relevantTypes {V : Type} (order : List String)
    (types : Assoc (V → Except String V)) : Assoc (V → Except String V) :=
  order.filterMap (fun k => (alookup types k).map (fun f => (k, f)))

/-- `SparseEnumap._make_casted_mapping`.  The set of supplied keys is
`present = set(mapping)` before the default fill; only
`present_typed = present & set(types)` is cast.  `present_typed` is a Python
set of strings, whose iteration order is unspecified (string hashing is
randomized per process), so that order enters as the `order` argument; the
theorems constrain it to enumerate exactly that set.  The validity check
(`present` inside the names, positional count in range) runs only after the
casting step, mirroring the source. -/
def makeCastedMapping {V : Type} (noneV : V) (kindOf : V → String)
    (types : Assoc (V → Except String V)) (order : List String)
    (defaults : Assoc V) (names : List String) (values : List V) (named : Assoc V) :
    Except (Err V) (Assoc V) :=
  let base := mergeArgs names values named
  let present := keysOf base
  let mapping := if defaults.isEmpty then base else fillFromDefaults defaults names base
  let relevant := relevantTypes order types
  match (if types.isEmpty then .ok [] else typeCastItems kindOf mapping relevant) with
  | .error e => .error e
  | .ok casted =>
    let casted_mapping := dictUpdate mapping casted
    let temp := if defaults.isEmpty then names.map (fun n => (n, noneV)) else defaults
    let final := dictUpdate temp casted_mapping
    if present.all (fun k => names.contains k) = true ∧ values.length ≤ names.length then
      .ok final
    else raiseInvalidArgs names values final

/-- `order` enumerates the Python set `present & set(types)`: no duplicates,
and its members are exactly the supplied keys that have a type entry. -/
def ValidOrder {V : Type} (order present : List String)
    (types : Assoc (V → Except String V)) : Prop :=
  order.Nodup
    ∧ (∀ k ∈ order, k ∈ present ∧ (alookup types k).isSome = true)
    ∧ (∀ k ∈ present, (alookup types k).isSome = true → k ∈ order)

instance {V : Type} (order present : List String)
    (types : Assoc (V → Except String V)) :
    Decidable (ValidOrder order present types) := by
  unfold ValidOrder
  infer_instance

/-- `SparseEnumap.map` (inherited `Enumap.map` body over the sparse checked
mapping). -/
def map {V : Type} (noneV : V) (defaults : Assoc V) (names : List String)
    (values : List V) (named : Assoc V) : Except (Err V) (Assoc V) :=
  (makeCheckedMapping noneV defaults names values named).map (readout names)

/-- `SparseEnumap.tuple` (inherited `Enumap.tuple` body: namedtuple fast path,
then the sparse checked mapping). -/
def tuple {V : Type} (noneV : V) (defaults : Assoc V) (names : List String)
    (values : List V) (named : Assoc V) : Except (Err V) (List V) :=
  match namedtupleNew names values named with
  | some t => .ok t
  | none => (makeCheckedMapping noneV defaults names values named).map (tupleOut names)

/-- `SparseEnumap.map_casted`. -/
def mapCasted {V : Type} (noneV : V) (kindOf : V → String)
    (types : Assoc (V → Except String V)) (order : List String)
    (defaults : Assoc V) (names : List String) (values : List V) (named : Assoc V) :
    Except (Err V) (Assoc V) :=
  (makeCastedMapping noneV kindOf types order defaults names values named).map (readout names)

/-- `SparseEnumap.tuple_casted`. -/
def tupleCasted {V : Type} (noneV : V) (kindOf : V → String)
    (types : Assoc (V → Except String V)) (order : List String)
    (defaults : Assoc V) (names : List String) (values : List V) (named : Assoc V) :
    Except (Err V) (List V) :=
  (makeCastedMapping noneV kindOf types order defaults names values named).map (tupleOut names)

/-- `SparseEnumap.set_defaults`: the new defaults registry is
`cls.map(*values, **named_values)`, a sparse resolve against the current
defaults. -/
def setDefaults {V : Type} (noneV : V) (defaults : Assoc V) (names : List String)
    (values : List V) (named : Assoc V) : Except (Err V) (Assoc V) :=
  map noneV defaults names values named

/-- `SparseEnumap.defaults()` before any `set_defaults` call:
`Enumap("_Defaults", names).map(*[None] * len(cls), **declared_defaults)`,
where `declared_defaults` collects the values of the `default(...)` members. -/
def defaultsInit {V : Type} (noneV : V) (names : List String) (declared : Assoc V) :
    Except (Err V) (Assoc V) :=
  Enumap.map names (List.replicate names.length noneV) declared

end SparseEnumap

/-- `Enumap.set_types`: the arguments are first resolved through a temporary
`SparseEnumap` over the same names (whose defaults are all `None`, since its
functional-API members declare no `default(...)`), the entries that resolved
to `None` are dropped, and the original arguments are then resolved again
through a strict `Enumap` over the remaining key subset, which becomes the
stored registry.  The type entries are opaque values here (`Option T` with
`none` for Python `None`): registration never calls them. -/
def Enumap.setTypes {T : Type} (names : List String) (positional : List (Option T))
    (named : Assoc (Option T)) : Except (Err (Option T)) (Assoc (Option T)) :=
  match SparseEnumap.map (none : Option T) (names.map (fun n => (n, (none : Option T))))
      names positional named with
  | .error e => .error e
  | .ok sparseTypeMap =>
    let nonNull := sparseTypeMap.filter (fun p => p.2.isSome)
    Enumap.map (keysOf nonNull) positional named

/-- A small universe of Python values for the concrete schemas of the
witnesses and counterexamples. -/
inductive PV : Type where
  | none
  | str (s : String)
  | int (n : Int)
  deriving DecidableEq

/-- `type(value).__name__` on the `PV` universe. -/
def pvKind : PV → String
  | .none => "NoneType"
  | .str _ => "str"
  | .int _ => "int"

/-- Decimal digit accumulator for the concrete `int` cast below. -/
def pvDigits : List Char → Nat → Option Nat
  | [], acc => some acc
  | c :: rest, acc =>
    if c.isDigit then pvDigits rest (acc * 10 + (c.toNat - 48)) else none

/-- The builtin `int` as a cast callable on `PV`: parses a decimal string,
passes integers through, raises otherwise. -/
def pvToInt : PV → Except String PV
  | .str s =>
    match s.data with
    | [] => .error ("invalid literal for int: " ++ s)
    | cs =>
      match pvDigits cs 0 with
      | some n => .ok (.int (Int.ofNat n))
      | none => .error ("invalid literal for int: " ++ s)
  | .int n => .ok (.int n)
  | .none => .error "int argument must be a string or a number, not NoneType"

/-! ### Association-list (Python dict) lemmas -/

theorem alookup_cons {V : Type} (k : String) (v : V) (rest : Assoc V) (key : String) :
    alookup ((k, v) :: rest) key = if k = key then some v else alookup rest key := rfl

theorem hasKey_cons {V : Type} (k : String) (v : V) (rest : Assoc V) (key : String) :
    hasKey ((k, v) :: rest) key = (decide (k = key) || hasKey rest key) := by
  by_cases h : k = key <;> simp [hasKey, alookup_cons, h]

theorem alookup_map_replace_ne {V : Type} (m : Assoc V) (k : String) (v : V)
    (key : String) (hne : key ≠ k) :
    alookup (m.map fun p => if p.1 = k then (p.1, v) else p) key = alookup m key := by
  induction m with
  | nil => rfl
  | cons p rest ih =>
    obtain ⟨pk, pv⟩ := p
    simp only [List.map_cons]
    by_cases hpk : pk = k
    · simp only [if_pos hpk]
      have hpkey : pk ≠ key := fun hh => hne (by rw [← hh]; exact hpk)
      rw [alookup_cons, alookup_cons, ih, if_neg hpkey, if_neg hpkey]
    · simp only [if_neg hpk]
      rw [alookup_cons, alookup_cons, ih]

theorem alookup_map_replace_self {V : Type} (m : Assoc V) (k : String) (v : V)
    (h : hasKey m k = true) :
    alookup (m.map fun p => if p.1 = k then (p.1, v) else p) k = some v := by
  induction m with
  | nil => simp [hasKey, alookup] at h
  | cons p rest ih =>
    obtain ⟨pk, pv⟩ := p
    rw [hasKey_cons] at h
    simp only [List.map_cons]
    by_cases hpk : pk = k
    · simp only [if_pos hpk]
      rw [alookup_cons, if_pos hpk]
    · simp only [if_neg hpk]
      rw [alookup_cons, if_neg hpk]
      exact ih (by simpa [hpk] using h)

theorem alookup_append_single_self {V : Type} (m : Assoc V) (k : String) (v : V)
    (h : hasKey m k = false) : alookup (m ++ [(k, v)]) k = some v := by
  induction m with
  | nil => simp [alookup]
  | cons p rest ih =>
    obtain ⟨pk, pv⟩ := p
    rw [hasKey_cons] at h
    simp only [Bool.or_eq_false_iff, decide_eq_false_iff_not] at h
    rw [List.cons_append, alookup_cons, if_neg h.1]
    exact ih h.2

theorem alookup_append_single_ne {V : Type} (m : Assoc V) (k : String) (v : V)
    (key : String) (hne : key ≠ k) : alookup (m ++ [(k, v)]) key = alookup m key := by
  induction m with
  | nil =>
    show alookup [(k, v)] key = none
    rw [alookup_cons, if_neg (fun hh => hne hh.symm)]
    rfl
  | cons p rest ih =>
    obtain ⟨pk, pv⟩ := p
    rw [List.cons_append, alookup_cons, alookup_cons, ih]

/-- The dict assignment `d[k] = v` behaves as a pointwise override. -/
theorem alookup_dictSet {V : Type} (m : Assoc V) (k : String) (v : V) (key : String) :
    alookup (dictSet m k v) key = if key = k then some v else alookup m key := by
  unfold dictSet
  by_cases hk : key = k
  · subst hk
    rw [if_pos rfl]
    split
    · exact alookup_map_replace_self m key v (by assumption)
    · rename_i h
      exact alookup_append_single_self m key v (by simpa using h)
  · rw [if_neg hk]
    split
    · exact alookup_map_replace_ne m k v key hk
    · exact alookup_append_single_ne m k v key hk

theorem hasKey_dictSet {V : Type} (m : Assoc V) (k : String) (v : V) (key : String) :
    hasKey (dictSet m k v) key = (hasKey m key || decide (key = k)) := by
  unfold hasKey
  rw [alookup_dictSet]
  by_cases h : key = k <;> simp [h, hasKey]

theorem alookup_dictUpdate_not_mem {V : Type} (kvs : Assoc V) (m : Assoc V) (key : String)
    (h : key ∉ keysOf kvs) : alookup (dictUpdate m kvs) key = alookup m key := by
  induction kvs generalizing m with
  | nil => rfl
  | cons p rest ih =>
    obtain ⟨k, v⟩ := p
    simp only [keysOf, List.map_cons, List.mem_cons, not_or] at h
    show alookup (dictUpdate (dictSet m k v) rest) key = alookup m key
    rw [ih (dictSet m k v) (by simpa [keysOf] using h.2)]
    rw [alookup_dictSet, if_neg h.1]

theorem alookup_dictUpdate_mem {V : Type} (kvs : Assoc V) (m : Assoc V) (key : String)
    (hnd : (keysOf kvs).Nodup) (h : key ∈ keysOf kvs) :
    alookup (dictUpdate m kvs) key = alookup kvs key := by
  induction kvs generalizing m with
  | nil => simp [keysOf] at h
  | cons p rest ih =>
    obtain ⟨k, v⟩ := p
    simp only [keysOf, List.map_cons, List.nodup_cons] at hnd
    by_cases hk : key = k
    · subst hk
      show alookup (dictUpdate (dictSet m key v) rest) key = alookup ((key, v) :: rest) key
      rw [alookup_dictUpdate_not_mem rest _ _ (by simpa [keysOf] using hnd.1)]
      rw [alookup_dictSet, if_pos rfl, alookup_cons, if_pos rfl]
    · simp only [keysOf, List.map_cons, List.mem_cons] at h
      rcases h with h | h
      · exact absurd h hk
      · show alookup (dictUpdate (dictSet m k v) rest) key = alookup ((k, v) :: rest) key
        rw [alookup_cons, if_neg (fun hh => hk hh.symm)]
        exact ih (dictSet m k v) (by simpa [keysOf] using hnd.2) h

theorem hasKey_dictUpdate {V : Type} (kvs : Assoc V) (m : Assoc V) (key : String) :
    hasKey (dictUpdate m kvs) key = (hasKey m key || hasKey kvs key) := by
  induction kvs generalizing m with
  | nil => simp [dictUpdate, hasKey, alookup]
  | cons p rest ih =>
    obtain ⟨k, v⟩ := p
    show hasKey (dictUpdate (dictSet m k v) rest) key = _
    rw [ih (dictSet m k v), hasKey_dictSet, hasKey_cons]
    by_cases hk : key = k
    · subst hk
      simp [Bool.or_comm, Bool.or_assoc, Bool.or_left_comm]
    · have hk2 : ¬ k = key := fun hh => hk hh.symm
      simp [hk, hk2]

theorem hasKey_iff_mem_keysOf {V : Type} (m : Assoc V) (key : String) :
    hasKey m key = true ↔ key ∈ keysOf m := by
  induction m with
  | nil => simp [hasKey, alookup, keysOf]
  | cons p rest ih =>
    obtain ⟨k, v⟩ := p
    rw [hasKey_cons]
    simp only [keysOf, List.map_cons, List.mem_cons, Bool.or_eq_true,
      decide_eq_true_eq]
    rw [show (List.map Prod.fst rest) = keysOf rest from rfl] at *
    constructor
    · rintro (h | h)
      · exact Or.inl h.symm
      · exact Or.inr (ih.1 h)
    · rintro (h | h)
      · exact Or.inl h.symm
      · exact Or.inr (ih.2 h)

theorem alookup_eq_none_iff {V : Type} (m : Assoc V) (key : String) :
    alookup m key = none ↔ key ∉ keysOf m := by
  rw [← hasKey_iff_mem_keysOf]
  unfold hasKey
  cases alookup m key <;> simp

theorem alookup_isSome_iff {V : Type} (m : Assoc V) (key : String) :
    (alookup m key).isSome = true ↔ key ∈ keysOf m := hasKey_iff_mem_keysOf m key

theorem nodup_keysOf_dictSet {V : Type} (m : Assoc V) (k : String) (v : V)
    (hnd : (keysOf m).Nodup) : (keysOf (dictSet m k v)).Nodup := by
  unfold dictSet
  split
  · have heq : keysOf (m.map fun p => if p.1 = k then (p.1, v) else p) = keysOf m := by
      unfold keysOf
      rw [List.map_map]
      have : ((fun p => Prod.fst p) ∘ fun p : String × V => if p.1 = k then (p.1, v) else p)
          = Prod.fst := by
        funext p
        by_cases hp : p.1 = k <;> simp [Function.comp, hp]
      rw [this]
    rw [heq]
    exact hnd
  · rename_i h
    unfold keysOf
    rw [List.map_append]
    simp only [List.map_cons, List.map_nil]
    rw [List.nodup_append]
    refine ⟨hnd, List.nodup_singleton k, ?_⟩
    intro a ha hmem
    rw [List.mem_singleton] at hmem
    subst hmem
    exact h ((hasKey_iff_mem_keysOf m _).2 ha)

theorem nodup_keysOf_dictUpdate {V : Type} (kvs : Assoc V) (m : Assoc V)
    (hnd : (keysOf m).Nodup) : (keysOf (dictUpdate m kvs)).Nodup := by
  induction kvs generalizing m with
  | nil => exact hnd
  | cons p rest ih =>
    obtain ⟨k, v⟩ := p
    exact ih (dictSet m k v) (nodup_keysOf_dictSet m k v hnd)

theorem hasKey_false_alookup {V : Type} (m : Assoc V) (key : String)
    (h : hasKey m key = false) : alookup m key = none := by
  unfold hasKey at h
  cases hl : alookup m key
  · rfl
  · rw [hl] at h
    simp at h

theorem keysOf_zip {V : Type} (names : List String) (values : List V) :
    keysOf (names.zip values) = names.take values.length := by
  induction names generalizing values with
  | nil => simp [keysOf]
  | cons n ns ih =>
    cases values with
    | nil => simp [keysOf]
    | cons v vs =>
      simp only [List.zip_cons_cons, keysOf, List.map_cons, List.length_cons,
        List.take_succ_cons]
      rw [show List.map Prod.fst (ns.zip vs) = keysOf (ns.zip vs) from rfl, ih]

theorem alookup_zip_get {V : Type} (names : List String) (values : List V)
    (hnd : names.Nodup) (i : Nat) (hi : i < names.length) :
    alookup (names.zip values) (names.get ⟨i, hi⟩) = values.get? i := by
  induction names generalizing values i with
  | nil => exact absurd hi (Nat.not_lt_zero i)
  | cons n ns ih =>
    obtain ⟨hn, hns⟩ := List.nodup_cons.mp hnd
    cases values with
    | nil => simp [alookup]
    | cons v vs =>
      cases i with
      | zero => simp [alookup_cons]
      | succ j =>
        have hj : j < ns.length := Nat.lt_of_succ_lt_succ hi
        have hmem : ns.get ⟨j, hj⟩ ∈ ns := List.get_mem ns j hj
        have hne : n ≠ ns.get ⟨j, hj⟩ := fun hh => hn (hh ▸ hmem)
        simp only [List.zip_cons_cons, List.get_cons_succ]
        rw [alookup_cons, if_neg hne]
        apply ih <;> assumption

theorem hasKey_mergeArgs {V : Type} (names : List String) (values : List V)
    (named : Assoc V) (key : String) :
    hasKey (mergeArgs names values named) key
      = (hasKey (names.zip values) key || hasKey named key) :=
  hasKey_dictUpdate named (names.zip values) key

theorem alookup_mergeArgs_kw {V : Type} (names : List String) (values : List V)
    (named : Assoc V) (key : String) (hnd : (keysOf named).Nodup)
    (h : key ∈ keysOf named) :
    alookup (mergeArgs names values named) key = alookup named key :=
  alookup_dictUpdate_mem named (names.zip values) key hnd h

theorem alookup_mergeArgs_not_kw {V : Type} (names : List String) (values : List V)
    (named : Assoc V) (key : String) (h : key ∉ keysOf named) :
    alookup (mergeArgs names values named) key = alookup (names.zip values) key :=
  alookup_dictUpdate_not_mem named (names.zip values) key h

theorem nodup_keysOf_mergeArgs {V : Type} (names : List String) (values : List V)
    (named : Assoc V) (hnd : names.Nodup) :
    (keysOf (mergeArgs names values named)).Nodup :=
  nodup_keysOf_dictUpdate named (names.zip values)
    (by rw [keysOf_zip]; exact hnd.sublist (List.take_sublist _ _))

theorem keyed_filterMap_cons_none {V : Type} (src : Assoc V) (a : String)
    (as : List String) (h : alookup src a = none) :
    (a :: as).filterMap (fun k => (alookup src k).map (fun v => (k, v)))
      = as.filterMap (fun k => (alookup src k).map (fun v => (k, v))) := by
  apply List.filterMap_cons_none
  show (alookup src a).map (fun v => (a, v)) = none
  rw [h]
  rfl

theorem keyed_filterMap_cons_some {V : Type} (src : Assoc V) (a : String)
    (as : List String) (v : V) (h : alookup src a = some v) :
    (a :: as).filterMap (fun k => (alookup src k).map (fun w => (k, w)))
      = (a, v) :: as.filterMap (fun k => (alookup src k).map (fun w => (k, w))) := by
  apply List.filterMap_cons_some
  show (alookup src a).map (fun w => (a, w)) = some (a, v)
  rw [h]
  rfl

/-- Lookup in a list of `(k, m[k])` entries built by `filterMap` over keys. -/
theorem alookup_keyed_filterMap {V : Type} (l : List String) (src : Assoc V)
    (key : String) (hnd : l.Nodup) :
    alookup (l.filterMap (fun k => (alookup src k).map (fun v => (k, v)))) key
      = if key ∈ l then alookup src key else none := by
  induction l with
  | nil => simp [alookup]
  | cons a as ih =>
    obtain ⟨ha, has⟩ := List.nodup_cons.mp hnd
    by_cases hak : a = key
    · subst hak
      cases hda : alookup src a with
      | none =>
        rw [keyed_filterMap_cons_none _ _ _ hda]
        simp [ih has, ha, hda]
      | some v =>
        rw [keyed_filterMap_cons_some _ _ _ _ hda]
        simp [alookup_cons, hda]
    · have hmem : (key ∈ a :: as) = (key ∈ as) := by
        simp only [List.mem_cons, eq_iff_iff]
        constructor
        · rintro (hh | hh)
          · exact absurd hh.symm hak
          · exact hh
        · exact Or.inr
      cases hda : alookup src a with
      | none =>
        rw [keyed_filterMap_cons_none _ _ _ hda, ih has]
        by_cases hkas : key ∈ as
        · rw [if_pos hkas, if_pos (List.mem_cons_of_mem a hkas)]
        · rw [if_neg hkas, if_neg (by
            intro hh
            rcases List.mem_cons.mp hh with hh1 | hh2
            · exact hak hh1.symm
            · exact hkas hh2)]
      | some v =>
        rw [keyed_filterMap_cons_some _ _ _ _ hda, alookup_cons, if_neg hak, ih has]
        by_cases hkas : key ∈ as
        · rw [if_pos hkas, if_pos (List.mem_cons_of_mem a hkas)]
        · rw [if_neg hkas, if_neg (by
            intro hh
            rcases List.mem_cons.mp hh with hh1 | hh2
            · exact hak hh1.symm
            · exact hkas hh2)]

theorem mem_keysOf_keyed_filterMap {V : Type} (l : List String) (src : Assoc V)
    (key : String) :
    key ∈ keysOf (l.filterMap (fun k => (alookup src k).map (fun v => (k, v))))
      ↔ key ∈ l ∧ (alookup src key).isSome = true := by
  induction l with
  | nil => simp [keysOf]
  | cons a as ih =>
    by_cases hak : key = a
    · subst hak
      cases hda : alookup src key with
      | none =>
        rw [keyed_filterMap_cons_none _ _ _ hda, ih]
        simp [hda]
      | some v =>
        rw [keyed_filterMap_cons_some _ _ _ _ hda]
        simp [keysOf, hda]
    · cases hda : alookup src a with
      | none =>
        rw [keyed_filterMap_cons_none _ _ _ hda, ih]
        simp [List.mem_cons, hak]
      | some v =>
        rw [keyed_filterMap_cons_some _ _ _ _ hda]
        simp only [keysOf, List.map_cons, List.mem_cons]
        rw [show List.map Prod.fst _ = keysOf
          (as.filterMap (fun k => (alookup src k).map (fun v => (k, v)))) from rfl, ih]
        simp [hak]

theorem keysOf_keyed_filterMap_sublist {V : Type} (l : List String) (src : Assoc V) :
    List.Sublist (keysOf (l.filterMap (fun k => (alookup src k).map (fun v => (k, v))))) l := by
  induction l with
  | nil => simp [keysOf]
  | cons a as ih =>
    cases hda : alookup src a with
    | none =>
      rw [keyed_filterMap_cons_none _ _ _ hda]
      exact ih.cons a
    | some v =>
      rw [keyed_filterMap_cons_some _ _ _ _ hda]
      exact ih.cons₂ a

/-- The sparse default fill, pointwise: a key already present keeps its value;
a missing declared name receives the default registry value; other keys are
untouched. -/
theorem alookup_fillFromDefaults {V : Type} (defaults : Assoc V) (names : List String)
    (mapping : Assoc V) (hnd : names.Nodup) (key : String) :
    alookup (SparseEnumap.fillFromDefaults defaults names mapping) key
      = if hasKey mapping key = true then alookup mapping key
        else if key ∈ names then alookup defaults key else none := by
  unfold SparseEnumap.fillFromDefaults
  have hmlnd : (names.filter (fun n => !hasKey mapping n)).Nodup := hnd.filter _
  by_cases hk : hasKey mapping key = true
  · rw [if_pos hk]
    apply alookup_dictUpdate_not_mem
    intro hmem
    have := (mem_keysOf_keyed_filterMap _ defaults key).mp hmem
    have hml := this.1
    rw [List.mem_filter] at hml
    rw [hk] at hml
    simp at hml
  · rw [if_neg hk]
    have hk' : hasKey mapping key = false := by
      cases hhh : hasKey mapping key
      · rfl
      · exact absurd hhh hk
    by_cases hkn : key ∈ names
    · rw [if_pos hkn]
      have hml : key ∈ names.filter (fun n => !hasKey mapping n) := by
        rw [List.mem_filter, hk']
        exact ⟨hkn, rfl⟩
      cases hd : alookup defaults key with
      | none =>
        rw [alookup_dictUpdate_not_mem]
        · exact hasKey_false_alookup mapping key hk'
        · intro hmem
          have := (mem_keysOf_keyed_filterMap _ defaults key).mp hmem
          rw [hd] at this
          simp at this
      | some d =>
        rw [alookup_dictUpdate_mem]
        · rw [alookup_keyed_filterMap _ defaults key hmlnd, if_pos hml, hd]
        · exact ((keysOf_keyed_filterMap_sublist _ defaults).nodup hmlnd)
        · exact (mem_keysOf_keyed_filterMap _ defaults key).mpr
            ⟨hml, by rw [hd]; rfl⟩
    · rw [if_neg hkn]
      rw [alookup_dictUpdate_not_mem]
      · exact hasKey_false_alookup mapping key hk'
      · intro hmem
        have := (mem_keysOf_keyed_filterMap _ defaults key).mp hmem
        exact hkn (List.mem_of_mem_filter this.1)

theorem sameKeySet_iff {V : Type} (m : Assoc V) (names : List String) :
    sameKeySet m names = true
      ↔ (∀ n ∈ names, n ∈ keysOf m) ∧ (∀ k ∈ keysOf m, k ∈ names) := by
  unfold sameKeySet
  rw [Bool.and_eq_true, List.all_eq_true, List.all_eq_true]
  constructor
  · rintro ⟨h1, h2⟩
    constructor
    · intro n hn
      exact (hasKey_iff_mem_keysOf m n).mp (h1 n hn)
    · intro k hk
      have := h2 k hk
      simpa using this
  · rintro ⟨h1, h2⟩
    constructor
    · intro n hn
      exact (hasKey_iff_mem_keysOf m n).mpr (h1 n hn)
    · intro k hk
      simpa using h2 k hk

/-- The by-name readout is pointwise the mapping itself on declared names. -/
theorem alookup_readout {V : Type} (names : List String) (m : Assoc V)
    (hnd : names.Nodup) (key : String) :
    alookup (readout names m) key = if key ∈ names then alookup m key else none :=
  alookup_keyed_filterMap names m key hnd

theorem keysOf_readout_of_cover {V : Type} (names : List String) (m : Assoc V)
    (hcov : ∀ n ∈ names, hasKey m n = true) :
    keysOf (readout names m) = names := by
  induction names with
  | nil => simp [readout, keysOf]
  | cons a as ih =>
    have ha := hcov a (List.mem_cons_self a as)
    unfold hasKey at ha
    cases hla : alookup m a with
    | none => rw [hla] at ha; simp at ha
    | some v =>
      unfold readout
      rw [keyed_filterMap_cons_some _ _ _ _ hla]
      simp only [keysOf, List.map_cons]
      show a :: keysOf (readout as m) = a :: as
      rw [ih (fun n hn => hcov n (List.mem_cons_of_mem a hn))]

/-- The positional record readout, pointwise: field `i` holds the mapping
value of the `i`-th declared name. -/
theorem get?_tupleOut {V : Type} (names : List String) (m : Assoc V)
    (hcov : ∀ n ∈ names, hasKey m n = true) (i : Nat) :
    (tupleOut names m).get? i = (names.get? i).bind (alookup m) := by
  induction names generalizing i with
  | nil => simp [tupleOut]
  | cons a as ih =>
    have ha := hcov a (List.mem_cons_self a as)
    unfold hasKey at ha
    cases hla : alookup m a with
    | none => rw [hla] at ha; simp at ha
    | some v =>
      unfold tupleOut
      rw [List.filterMap_cons_some hla]
      cases i with
      | zero => simp [hla]
      | succ j =>
        simp only [List.get?_cons_succ]
        exact ih (fun n hn => hcov n (List.mem_cons_of_mem a hn)) j

/-! ### Except and merge characterizations -/

theorem exceptMap_ok_iff {E A B : Type} (f : A → B) (x : Except E A) (b : B) :
    x.map f = .ok b ↔ ∃ a, x = .ok a ∧ b = f a := by
  cases x <;> simp [Except.map]
  exact eq_comm

theorem exceptMap_error_iff {E A B : Type} (f : A → B) (x : Except E A) (e : E) :
    x.map f = .error e ↔ x = .error e := by
  cases x <;> simp [Except.map]

theorem mem_keysOf_mergeArgs {V : Type} (names : List String) (values : List V)
    (named : Assoc V) (key : String) :
    key ∈ keysOf (mergeArgs names values named)
      ↔ key ∈ names.take values.length ∨ key ∈ keysOf named := by
  rw [← hasKey_iff_mem_keysOf, hasKey_mergeArgs, Bool.or_eq_true,
    hasKey_iff_mem_keysOf, hasKey_iff_mem_keysOf, keysOf_zip]

theorem alookup_mergeArgs_pos {V : Type} (names : List String) (values : List V)
    (named : Assoc V) (hnd : names.Nodup) (i : Nat) (hi : i < names.length)
    (hnkw : alookup named (names.get ⟨i, hi⟩) = none) :
    alookup (mergeArgs names values named) (names.get ⟨i, hi⟩) = values.get? i := by
  rw [alookup_mergeArgs_not_kw _ _ _ _ ((alookup_eq_none_iff _ _).mp hnkw)]
  exact alookup_zip_get names values hnd i hi

/-- `Enumap._make_checked_mapping` succeeds exactly on the key-set and length
conditions of the source, returning the merged dict. -/
theorem strict_checked_ok_iff {V : Type} (names : List String) (values : List V)
    (named : Assoc V) (m : Assoc V) :
    Enumap.makeCheckedMapping names values named = .ok m
      ↔ sameKeySet (mergeArgs names values named) names = true
        ∧ values.length ≤ names.length ∧ m = mergeArgs names values named := by
  simp only [Enumap.makeCheckedMapping]
  split
  · rename_i h
    constructor
    · intro hok
      cases hok
      exact ⟨h.1, h.2, rfl⟩
    · rintro ⟨h1, h2, rfl⟩
      rfl
  · rename_i h
    constructor
    · intro hok
      exfalso
      unfold Enumap.raiseInvalidArgs at hok
      split at hok <;> simp at hok
    · rintro ⟨h1, h2, rfl⟩
      exact absurd ⟨h1, h2⟩ h

theorem strict_checked_tooMany {V : Type} (names : List String) (values : List V)
    (named : Assoc V) (h : names.length < values.length) :
    Enumap.makeCheckedMapping names values named
      = .error (.tooManyArguments names.length values.length) := by
  simp only [Enumap.makeCheckedMapping]
  rw [if_neg (fun hc => absurd hc.2 (Nat.not_le_of_lt h))]
  unfold Enumap.raiseInvalidArgs
  rw [if_pos h]

theorem strict_checked_mismatch {V : Type} (names : List String) (values : List V)
    (named : Assoc V) (hlen : values.length ≤ names.length)
    (hbad : ¬ sameKeySet (mergeArgs names values named) names = true) :
    Enumap.makeCheckedMapping names values named
      = .error (.schemaMismatch (missingOf names (mergeArgs names values named))
          (invalidOf names (mergeArgs names values named))) := by
  simp only [Enumap.makeCheckedMapping]
  rw [if_neg (fun hc => absurd hc.1 hbad)]
  unfold Enumap.raiseInvalidArgs
  rw [if_neg (Nat.not_lt_of_le hlen)]

/-- The merged key set equals the declared names whenever the keyword keys are
declared names and every name unreached by the positional values is supplied
by keyword. -/
theorem strict_sameKeySet_of {V : Type} (names : List String) (values : List V)
    (named : Assoc V) (hnd : names.Nodup)
    (hkw : ∀ k ∈ keysOf named, k ∈ names)
    (hcov : ∀ i, (hi : i < names.length) → values.length ≤ i →
      names.get ⟨i, hi⟩ ∈ keysOf named) :
    sameKeySet (mergeArgs names values named) names = true := by
  rw [sameKeySet_iff]
  constructor
  · intro n hn
    obtain ⟨⟨i, hi⟩, hget⟩ := List.mem_iff_get.mp hn
    rw [mem_keysOf_mergeArgs]
    by_cases hlt : i < values.length
    · left
      rw [← hget]
      exact List.mem_take_iff_getElem.mpr
        ⟨i, by omega, by simp [List.getElem_take, List.get_eq_getElem]⟩
    · right
      rw [← hget]
      exact hcov i hi (Nat.le_of_not_lt hlt)
  · intro k hk
    rw [mem_keysOf_mergeArgs] at hk
    rcases hk with hk | hk
    · exact List.mem_of_mem_take hk
    · exact hkw k hk

/-! ### Sparse checked-mapping characterizations -/

theorem isEmpty_false_of_ne_nil {A : Type} (l : List A) (h : l ≠ []) :
    l.isEmpty = false := by
  cases l with
  | nil => exact absurd rfl h
  | cons a as => rfl

theorem cover_of_keysOf_eq {V : Type} (defaults : Assoc V) (names : List String)
    (h : keysOf defaults = names) : ∀ n ∈ names, hasKey defaults n = true := by
  intro n hn
  rw [hasKey_iff_mem_keysOf, h]
  exact hn

/-- `SparseEnumap._make_checked_mapping` with a non-empty defaults registry
succeeds exactly on the no-invalid-keys and length conditions, returning the
merged dict filled from the defaults. -/
theorem sparse_checked_ok_iff {V : Type} (noneV : V) (defaults : Assoc V)
    (names : List String) (values : List V) (named : Assoc V) (m : Assoc V)
    (hne : defaults ≠ []) :
    SparseEnumap.makeCheckedMapping noneV defaults names values named = .ok m
      ↔ sameKeySet (SparseEnumap.fillFromDefaults defaults names
            (mergeArgs names values named)) names = true
        ∧ values.length ≤ names.length
        ∧ m = SparseEnumap.fillFromDefaults defaults names (mergeArgs names values named) := by
  simp only [SparseEnumap.makeCheckedMapping]
  rw [if_neg (by rw [isEmpty_false_of_ne_nil defaults hne]; simp)]
  split
  · rename_i h
    constructor
    · intro hok
      cases hok
      exact ⟨h.1, h.2, rfl⟩
    · rintro ⟨h1, h2, rfl⟩
      rfl
  · rename_i h
    constructor
    · intro hok
      exfalso
      unfold SparseEnumap.raiseInvalidArgs at hok
      split at hok <;> simp at hok
    · rintro ⟨h1, h2, rfl⟩
      exact absurd ⟨h1, h2⟩ h

theorem sparse_checked_tooMany {V : Type} (noneV : V) (defaults : Assoc V)
    (names : List String) (values : List V) (named : Assoc V)
    (h : names.length < values.length) :
    SparseEnumap.makeCheckedMapping noneV defaults names values named
      = .error (.tooManyArguments names.length values.length) := by
  simp only [SparseEnumap.makeCheckedMapping]
  split
  · rw [if_neg (fun hc => absurd hc.2 (Nat.not_le_of_lt h))]
    unfold SparseEnumap.raiseInvalidArgs
    rw [if_pos h]
  · rw [if_neg (fun hc => absurd hc.2 (Nat.not_le_of_lt h))]
    unfold SparseEnumap.raiseInvalidArgs
    rw [if_pos h]

theorem sparse_checked_invalid {V : Type} (noneV : V) (defaults : Assoc V)
    (names : List String) (values : List V) (named : Assoc V)
    (hne : defaults ≠ []) (hlen : values.length ≤ names.length)
    (hbad : ¬ sameKeySet (SparseEnumap.fillFromDefaults defaults names
      (mergeArgs names values named)) names = true) :
    SparseEnumap.makeCheckedMapping noneV defaults names values named
      = .error (.invalidKeys (invalidOf names (SparseEnumap.fillFromDefaults defaults names
          (mergeArgs names values named)))) := by
  simp only [SparseEnumap.makeCheckedMapping]
  rw [if_neg (by rw [isEmpty_false_of_ne_nil defaults hne]; simp)]
  rw [if_neg (fun hc => absurd hc.1 hbad)]
  unfold SparseEnumap.raiseInvalidArgs
  rw [if_neg (Nat.not_lt_of_le hlen)]

theorem sparse_filled_covers {V : Type} (defaults : Assoc V) (names : List String)
    (mapping : Assoc V) (hnd : names.Nodup)
    (hcovd : ∀ n ∈ names, hasKey defaults n = true) :
    ∀ n ∈ names, hasKey (SparseEnumap.fillFromDefaults defaults names mapping) n = true := by
  intro n hn
  unfold hasKey
  rw [alookup_fillFromDefaults defaults names mapping hnd n]
  by_cases hk : hasKey mapping n = true
  · rw [if_pos hk]
    exact hk
  · rw [if_neg hk, if_pos hn]
    exact hcovd n hn

theorem sparse_filled_subset {V : Type} (defaults : Assoc V) (names : List String)
    (values : List V) (named : Assoc V) (hnd : names.Nodup)
    (hkw : ∀ k ∈ keysOf named, k ∈ names) :
    ∀ k ∈ keysOf (SparseEnumap.fillFromDefaults defaults names
      (mergeArgs names values named)), k ∈ names := by
  intro k hk
  rw [← hasKey_iff_mem_keysOf] at hk
  unfold hasKey at hk
  rw [alookup_fillFromDefaults defaults names _ hnd k] at hk
  by_cases hm : hasKey (mergeArgs names values named) k = true
  · rw [if_pos hm] at hk
    rcases (mem_keysOf_mergeArgs names values named k).mp
        ((hasKey_iff_mem_keysOf _ k).mp hm) with hh | hh
    · exact List.mem_of_mem_take hh
    · exact hkw k hh
  · rw [if_neg hm] at hk
    by_cases hkn : k ∈ names
    · exact hkn
    · rw [if_neg hkn] at hk
      simp at hk

theorem sparse_sameKeySet_of {V : Type} (defaults : Assoc V) (names : List String)
    (values : List V) (named : Assoc V) (hnd : names.Nodup)
    (hcovd : ∀ n ∈ names, hasKey defaults n = true)
    (hkw : ∀ k ∈ keysOf named, k ∈ names) :
    sameKeySet (SparseEnumap.fillFromDefaults defaults names
      (mergeArgs names values named)) names = true := by
  rw [sameKeySet_iff]
  constructor
  · intro n hn
    rw [← hasKey_iff_mem_keysOf]
    exact sparse_filled_covers defaults names _ hnd hcovd n hn
  · exact sparse_filled_subset defaults names values named hnd hkw

/-- A keyword-supplied field in the sparse fill holds its keyword value. -/
theorem sparse_filled_kw {V : Type} (defaults : Assoc V) (names : List String)
    (values : List V) (named : Assoc V) (hnd : names.Nodup)
    (hkwnd : (keysOf named).Nodup) (key : String) (hmem : key ∈ keysOf named) :
    alookup (SparseEnumap.fillFromDefaults defaults names (mergeArgs names values named)) key
      = alookup named key := by
  have hm : hasKey (mergeArgs names values named) key = true := by
    rw [hasKey_mergeArgs, Bool.or_eq_true]
    right
    exact (hasKey_iff_mem_keysOf named key).mpr hmem
  rw [alookup_fillFromDefaults defaults names _ hnd key, if_pos hm]
  exact alookup_mergeArgs_kw names values named key hkwnd hmem

/-- A positionally supplied, not keyword-overridden field in the sparse fill
holds its positional value. -/
theorem sparse_filled_pos {V : Type} (defaults : Assoc V) (names : List String)
    (values : List V) (named : Assoc V) (hnd : names.Nodup) (i : Nat)
    (hi : i < names.length) (hnkw : alookup named (names.get ⟨i, hi⟩) = none)
    (hlt : i < values.length) :
    alookup (SparseEnumap.fillFromDefaults defaults names (mergeArgs names values named))
      (names.get ⟨i, hi⟩) = values.get? i := by
  have hz : alookup (names.zip values) (names.get ⟨i, hi⟩) = values.get? i :=
    alookup_zip_get names values hnd i hi
  have hm : hasKey (mergeArgs names values named) (names.get ⟨i, hi⟩) = true := by
    rw [hasKey_mergeArgs, Bool.or_eq_true]
    left
    unfold hasKey
    rw [hz, List.get?_eq_get hlt]
    rfl
  rw [alookup_fillFromDefaults defaults names _ hnd _, if_pos hm]
  rw [alookup_mergeArgs_not_kw _ _ _ _ ((alookup_eq_none_iff _ _).mp hnkw)]
  exact hz

/-- A field supplied neither positionally nor by keyword is filled from the
defaults registry. -/
theorem sparse_filled_default {V : Type} (defaults : Assoc V) (names : List String)
    (values : List V) (named : Assoc V) (hnd : names.Nodup) (i : Nat)
    (hi : i < names.length) (hnkw : alookup named (names.get ⟨i, hi⟩) = none)
    (hge : values.length ≤ i) :
    alookup (SparseEnumap.fillFromDefaults defaults names (mergeArgs names values named))
      (names.get ⟨i, hi⟩) = alookup defaults (names.get ⟨i, hi⟩) := by
  have hz : alookup (names.zip values) (names.get ⟨i, hi⟩) = none := by
    rw [alookup_zip_get names values hnd i hi]
    exact List.get?_eq_none.mpr hge
  have hm : ¬ hasKey (mergeArgs names values named) (names.get ⟨i, hi⟩) = true := by
    rw [hasKey_mergeArgs, Bool.or_eq_true]
    rintro (hh | hh)
    · unfold hasKey at hh
      rw [hz] at hh
      simp at hh
    · unfold hasKey at hh
      rw [hnkw] at hh
      simp at hh
  rw [alookup_fillFromDefaults defaults names _ hnd _, if_neg hm,
    if_pos (List.get_mem names i hi)]

/-! ### Cast-step lemmas -/

theorem contains_iff_mem (l : List String) (a : String) : l.contains a = true ↔ a ∈ l := by
  simp [List.contains]

theorem typeCastItems_ok_keysOf {V : Type} (kindOf : V → String) (mapping : Assoc V)
    (ts : List (String × (V → Except String V))) (out : Assoc V)
    (h : typeCastItems kindOf mapping ts = .ok out) : keysOf out = keysOf ts := by
  induction ts generalizing out with
  | nil =>
    simp only [typeCastItems] at h
    cases h
    rfl
  | cons p rest ih =>
    obtain ⟨key, f⟩ := p
    cases hma : alookup mapping key with
    | none => simp [typeCastItems, hma] at h
    | some v =>
      cases hfv : f v with
      | error e => simp [typeCastItems, hma, hfv] at h
      | ok w =>
        cases hrec : typeCastItems kindOf mapping rest with
        | error err =>
          simp [typeCastItems, hma, hfv, hrec] at h
        | ok tail =>
          simp only [typeCastItems, hma, hfv, hrec] at h
          cases h
          simp only [keysOf, List.map_cons]
          rw [show List.map Prod.fst tail = keysOf tail from rfl, ih tail hrec]
          rfl

theorem typeCastItems_ok_lookup {V : Type} (kindOf : V → String) (mapping : Assoc V)
    (ts : List (String × (V → Except String V))) (out : Assoc V)
    (hnd : (keysOf ts).Nodup) (key : String) (f : V → Except String V)
    (hmem : (key, f) ∈ ts) (h : typeCastItems kindOf mapping ts = .ok out) :
    ∃ v w, alookup mapping key = some v ∧ f v = .ok w ∧ alookup out key = some w := by
  induction ts generalizing out with
  | nil => simp at hmem
  | cons p rest ih =>
    obtain ⟨k0, f0⟩ := p
    have hnd2 : (k0 :: keysOf rest).Nodup := hnd
    obtain ⟨hk0, hrestnd⟩ := List.nodup_cons.mp hnd2
    cases hma : alookup mapping k0 with
    | none => simp [typeCastItems, hma] at h
    | some v =>
      cases hfv : f0 v with
      | error e => simp [typeCastItems, hma, hfv] at h
      | ok w =>
        cases hrec : typeCastItems kindOf mapping rest with
        | error err => simp [typeCastItems, hma, hfv, hrec] at h
        | ok tail =>
          simp only [typeCastItems, hma, hfv, hrec] at h
          cases h
          rcases List.mem_cons.mp hmem with hh | hh
          · cases hh
            exact ⟨v, w, hma, hfv, by rw [alookup_cons, if_pos rfl]⟩
          · have hkey : key ∈ keysOf rest := by
              unfold keysOf
              exact List.mem_map_of_mem Prod.fst hh
            have hne : k0 ≠ key := fun heq => hk0 (heq ▸ hkey)
            obtain ⟨v2, w2, hv2, hw2, hout⟩ := ih tail hrestnd hh hrec
            exact ⟨v2, w2, hv2, hw2, by rw [alookup_cons, if_neg hne]; exact hout⟩

/-- A failing cast run splits the registry at the first failing entry: every
earlier entry casts successfully, and the error carries that entry's key, its
raw value, the kind of that value, and the cause. -/
theorem typeCastItems_error_split {V : Type} (kindOf : V → String) (mapping : Assoc V)
    (ts : List (String × (V → Except String V))) (e : Err V)
    (h : typeCastItems kindOf mapping ts = .error e) :
    ∃ pre key f post, ts = pre ++ (key, f) :: post
      ∧ (∀ p ∈ pre, ∃ v w, alookup mapping p.1 = some v ∧ p.2 v = .ok w)
      ∧ ((∃ v c, alookup mapping key = some v ∧ f v = .error c
            ∧ e = .typeCastError key (some v) (kindOf v) c)
         ∨ (alookup mapping key = none
            ∧ e = .typeCastError key none "NoneType" key)) := by
  induction ts generalizing e with
  | nil => simp [typeCastItems] at h
  | cons p rest ih =>
    obtain ⟨k0, f0⟩ := p
    cases hma : alookup mapping k0 with
    | none =>
      simp only [typeCastItems, hma] at h
      refine ⟨[], k0, f0, rest, rfl, by simp, Or.inr ⟨hma, ?_⟩⟩
      cases h
      rfl
    | some v =>
      cases hfv : f0 v with
      | error c =>
        simp only [typeCastItems, hma, hfv] at h
        refine ⟨[], k0, f0, rest, rfl, by simp, Or.inl ⟨v, c, hma, hfv, ?_⟩⟩
        cases h
        rfl
      | ok w =>
        cases hrec : typeCastItems kindOf mapping rest with
        | error err =>
          simp only [typeCastItems, hma, hfv, hrec] at h
          cases h
          obtain ⟨pre, key, f, post, hsplit, hpre, hcase⟩ := ih _ hrec
          refine ⟨(k0, f0) :: pre, key, f, post, by rw [hsplit]; rfl, ?_, hcase⟩
          intro p hp
          rcases List.mem_cons.mp hp with hh | hh
          · cases hh
            exact ⟨v, w, hma, hfv⟩
          · exact hpre p hh
        | ok tail => simp [typeCastItems, hma, hfv, hrec] at h

/-! ### namedtuple fast-path lemmas -/

theorem bindFields_get? {V : Type} (named : Assoc V) (fields : List String)
    (values : List V) (t : List V) (hlen : values.length ≤ fields.length)
    (h : bindFields named fields values = some t) (i : Nat) :
    t.get? i = if i < values.length then values.get? i
               else (fields.get? i).bind (alookup named) := by
  induction fields generalizing values t i with
  | nil =>
    cases values with
    | nil =>
      simp only [bindFields] at h
      cases h
      simp
    | cons v vs => simp at hlen
  | cons f fs ih =>
    cases values with
    | nil =>
      cases hnf : alookup named f with
      | none => simp [bindFields, hnf] at h
      | some v =>
        cases hrec : bindFields named fs [] with
        | none => simp [bindFields, hnf, hrec] at h
        | some t0 =>
          simp [bindFields, hnf, hrec] at h
          subst h
          cases i with
          | zero => simp [hnf]
          | succ j =>
            simp only [List.get?_cons_succ]
            rw [ih [] t0 (Nat.zero_le _) hrec j]
            simp

    | cons v vs =>
      cases hrec : bindFields named fs vs with
      | none => simp [bindFields, hrec] at h
      | some t0 =>
        simp [bindFields, hrec] at h
        subst h
        cases i with
        | zero => simp
        | succ j =>
          simp only [List.get?_cons_succ]
          rw [ih vs t0 (Nat.le_of_succ_le_succ hlen) hrec j]
          by_cases hj : j < vs.length
          · rw [if_pos hj,
              if_pos (show j + 1 < (v :: vs).length from Nat.succ_lt_succ hj)]
          · rw [if_neg hj,
              if_neg (show ¬ j + 1 < (v :: vs).length from
                fun hh => hj (Nat.lt_of_succ_lt_succ hh))]

theorem bindFields_cover {V : Type} (named : Assoc V) (fields : List String)
    (values : List V) (t : List V) (h : bindFields named fields values = some t)
    (i : Nat) (hi : i < fields.length) (hge : values.length ≤ i) :
    (alookup named (fields.get ⟨i, hi⟩)).isSome = true := by
  induction fields generalizing values t i with
  | nil => exact absurd hi (Nat.not_lt_zero i)
  | cons f fs ih =>
    cases values with
    | nil =>
      cases hnf : alookup named f with
      | none => simp [bindFields, hnf] at h
      | some v =>
        cases hrec : bindFields named fs [] with
        | none => simp [bindFields, hnf, hrec] at h
        | some t0 =>
          cases i with
          | zero => rw [show (f :: fs).get ⟨0, hi⟩ = f from rfl, hnf]; rfl
          | succ j =>
            rw [List.get_cons_succ]
            exact ih [] t0 hrec j (Nat.lt_of_succ_lt_succ hi) (Nat.zero_le _)
    | cons v vs =>
      cases hrec : bindFields named fs vs with
      | none => simp [bindFields, hrec] at h
      | some t0 =>
        cases i with
        | zero => exact absurd hge (by simp)
        | succ j =>
          rw [List.get_cons_succ]
          exact ih vs t0 hrec j (Nat.lt_of_succ_lt_succ hi) (Nat.le_of_succ_le_succ hge)

/-- When the namedtuple fast path succeeds, the strict checked mapping also
succeeds on the same arguments, and the fast-path tuple is exactly the
positional readout of the merged mapping: the fast path and the fall-back
agree. -/
theorem namedtupleNew_some_char {V : Type} (fields : List String) (values : List V)
    (named : Assoc V) (t : List V) (hnd : fields.Nodup) (hkwnd : (keysOf named).Nodup)
    (h : namedtupleNew fields values named = some t) :
    Enumap.makeCheckedMapping fields values named = .ok (mergeArgs fields values named)
      ∧ t = tupleOut fields (mergeArgs fields values named) := by
  unfold namedtupleNew at h
  split at h
  case isFalse => exact absurd h (by simp)
  case isTrue hc =>
  obtain ⟨hlen, hkwb, hnovb⟩ := hc
  have hkw : ∀ k ∈ keysOf named, k ∈ fields := by
    intro k hk
    obtain ⟨p, hp, rfl⟩ := List.mem_map.mp hk
    exact (contains_iff_mem fields p.1).mp (hkwb p hp)
  have hnov : ∀ k ∈ keysOf named, k ∉ fields.take values.length := by
    intro k hk
    obtain ⟨p, hp, rfl⟩ := List.mem_map.mp hk
    intro hmem
    exact (hnovb p hp) ((contains_iff_mem _ p.1).mpr hmem)
  have hcov : ∀ i, (hi : i < fields.length) → values.length ≤ i →
      fields.get ⟨i, hi⟩ ∈ keysOf named := by
    intro i hi hge
    exact (alookup_isSome_iff named _).mp (bindFields_cover named fields values t h i hi hge)
  have hsk : sameKeySet (mergeArgs fields values named) fields = true :=
    strict_sameKeySet_of fields values named hnd hkw hcov
  have hok : Enumap.makeCheckedMapping fields values named
      = .ok (mergeArgs fields values named) :=
    (strict_checked_ok_iff fields values named _).mpr ⟨hsk, hlen, rfl⟩
  refine ⟨hok, ?_⟩
  have hcover : ∀ n ∈ fields, hasKey (mergeArgs fields values named) n = true := by
    intro n hn
    rw [hasKey_iff_mem_keysOf]
    exact ((sameKeySet_iff _ _).mp hsk).1 n hn
  apply List.ext
  intro i
  rw [get?_tupleOut fields _ hcover i]
  rw [bindFields_get? named fields values t hlen h i]
  by_cases hilt : i < fields.length
  · rw [List.get?_eq_get hilt]
    by_cases hvlt : i < values.length
    · rw [if_pos hvlt]
      have hnkw : alookup named (fields.get ⟨i, hilt⟩) = none := by
        cases hna : alookup named (fields.get ⟨i, hilt⟩) with
        | none => rfl
        | some w =>
          exfalso
          have hmemkw : fields.get ⟨i, hilt⟩ ∈ keysOf named := by
            rw [← alookup_isSome_iff, hna]
            rfl
          refine (hnov _ hmemkw) ?_
          exact List.mem_take_iff_getElem.mpr
            ⟨i, by omega, by simp [List.getElem_take, List.get_eq_getElem]⟩
      show values.get? i = alookup (mergeArgs fields values named) (fields.get ⟨i, hilt⟩)
      rw [alookup_mergeArgs_pos fields values named hnd i hilt hnkw]
    · rw [if_neg hvlt]
      have hmemkw : fields.get ⟨i, hilt⟩ ∈ keysOf named :=
        hcov i hilt (Nat.le_of_not_lt hvlt)
      show alookup named (fields.get ⟨i, hilt⟩)
        = alookup (mergeArgs fields values named) (fields.get ⟨i, hilt⟩)
      rw [alookup_mergeArgs_kw fields values named _ hkwnd hmemkw]
  · have hfg : fields.get? i = none := List.get?_eq_none.mpr (Nat.le_of_not_lt hilt)
    rw [hfg]
    rw [if_neg (fun hh => hilt (Nat.lt_of_lt_of_le hh hlen))]
    rfl

/-- `Enumap.tuple` success always factors through the checked mapping. -/
theorem strict_tuple_ok_char {V : Type} (names : List String) (values : List V)
    (named : Assoc V) (t : List V) (hnd : names.Nodup) (hkwnd : (keysOf named).Nodup)
    (h : Enumap.tuple names values named = .ok t) :
    ∃ m, Enumap.makeCheckedMapping names values named = .ok m ∧ t = tupleOut names m := by
  unfold Enumap.tuple at h
  cases hnt : namedtupleNew names values named with
  | some t0 =>
    rw [hnt] at h
    cases h
    obtain ⟨hok, ht⟩ := namedtupleNew_some_char names values named _ hnd hkwnd hnt
    exact ⟨_, hok, ht⟩
  | none =>
    rw [hnt, exceptMap_ok_iff] at h
    obtain ⟨m, hm, ht⟩ := h
    exact ⟨m, hm, ht⟩

/-- `Enumap.tuple` raises exactly the checked-mapping errors. -/
theorem strict_tuple_error_char {V : Type} (names : List String) (values : List V)
    (named : Assoc V) (e : Err V) (hnd : names.Nodup) (hkwnd : (keysOf named).Nodup) :
    Enumap.tuple names values named = .error e
      ↔ Enumap.makeCheckedMapping names values named = .error e := by
  unfold Enumap.tuple
  cases hnt : namedtupleNew names values named with
  | some t0 =>
    obtain ⟨hok, _⟩ := namedtupleNew_some_char names values named t0 hnd hkwnd hnt
    rw [hok]
    simp
  | none => rw [exceptMap_error_iff]

theorem fillFromDefaults_of_cover {V : Type} (defaults : Assoc V) (names : List String)
    (mapping : Assoc V) (hcov : ∀ n ∈ names, hasKey mapping n = true) :
    SparseEnumap.fillFromDefaults defaults names mapping = mapping := by
  unfold SparseEnumap.fillFromDefaults
  have hfil : names.filter (fun n => !hasKey mapping n) = [] := by
    rw [List.filter_eq_nil_iff]
    intro a ha
    rw [hcov a ha]
    simp
  rw [hfil]
  rfl

/-- When the namedtuple fast path succeeds, the sparse checked mapping also
succeeds (nothing is missing, so the default fill is the identity). -/
theorem sparse_fast_checked_ok {V : Type} (noneV : V) (defaults : Assoc V)
    (names : List String) (values : List V) (named : Assoc V) (t : List V)
    (hne : defaults ≠ []) (hnd : names.Nodup) (hkwnd : (keysOf named).Nodup)
    (h : namedtupleNew names values named = some t) :
    SparseEnumap.makeCheckedMapping noneV defaults names values named
        = .ok (mergeArgs names values named)
      ∧ t = tupleOut names (mergeArgs names values named) := by
  obtain ⟨hok, ht⟩ := namedtupleNew_some_char names values named t hnd hkwnd h
  obtain ⟨hsk, hlen, _⟩ := (strict_checked_ok_iff names values named _).mp hok
  have hcover : ∀ n ∈ names, hasKey (mergeArgs names values named) n = true := by
    intro n hn
    rw [hasKey_iff_mem_keysOf]
    exact ((sameKeySet_iff _ _).mp hsk).1 n hn
  have hfill : SparseEnumap.fillFromDefaults defaults names (mergeArgs names values named)
      = mergeArgs names values named :=
    fillFromDefaults_of_cover defaults names _ hcover
  refine ⟨?_, ht⟩
  rw [sparse_checked_ok_iff noneV defaults names values named _ hne, hfill]
  exact ⟨hsk, hlen, rfl⟩

/-- `SparseEnumap.tuple` success always factors through the sparse checked
mapping. -/
theorem sparse_tuple_ok_char {V : Type} (noneV : V) (defaults : Assoc V)
    (names : List String) (values : List V) (named : Assoc V) (t : List V)
    (hne : defaults ≠ []) (hnd : names.Nodup) (hkwnd : (keysOf named).Nodup)
    (h : SparseEnumap.tuple noneV defaults names values named = .ok t) :
    ∃ m, SparseEnumap.makeCheckedMapping noneV defaults names values named = .ok m
      ∧ t = tupleOut names m := by
  unfold SparseEnumap.tuple at h
  cases hnt : namedtupleNew names values named with
  | some t0 =>
    rw [hnt] at h
    cases h
    obtain ⟨hok, ht⟩ := sparse_fast_checked_ok noneV defaults names values named _
      hne hnd hkwnd hnt
    exact ⟨_, hok, ht⟩
  | none =>
    rw [hnt, exceptMap_ok_iff] at h
    obtain ⟨m, hm, ht⟩ := h
    exact ⟨m, hm, ht⟩

/-- `SparseEnumap.tuple` raises exactly the sparse checked-mapping errors. -/
theorem sparse_tuple_error_char {V : Type} (noneV : V) (defaults : Assoc V)
    (names : List String) (values : List V) (named : Assoc V) (e : Err V)
    (hne : defaults ≠ []) (hnd : names.Nodup) (hkwnd : (keysOf named).Nodup) :
    SparseEnumap.tuple noneV defaults names values named = .error e
      ↔ SparseEnumap.makeCheckedMapping noneV defaults names values named = .error e := by
  unfold SparseEnumap.tuple
  cases hnt : namedtupleNew names values named with
  | some t0 =>
    obtain ⟨hok, _⟩ := sparse_fast_checked_ok noneV defaults names values named t0
      hne hnd hkwnd hnt
    rw [hok]
    simp
  | none => rw [exceptMap_error_iff]

/-! ### Sparse casted-mapping lemmas -/

theorem relevantTypes_nil_types {V : Type} (order : List String) :
    SparseEnumap.relevantTypes order ([] : Assoc (V → Except String V)) = [] := by
  unfold SparseEnumap.relevantTypes
  exact List.filterMap_eq_nil_iff.mpr (fun a _ => rfl)

theorem mem_keysOf_relevantTypes {V : Type} (order : List String)
    (types : Assoc (V → Except String V)) (key : String) :
    key ∈ keysOf (SparseEnumap.relevantTypes order types)
      ↔ key ∈ order ∧ (alookup types key).isSome = true :=
  mem_keysOf_keyed_filterMap order types key

theorem nodup_keysOf_relevantTypes {V : Type} (order : List String)
    (types : Assoc (V → Except String V)) (hnd : order.Nodup) :
    (keysOf (SparseEnumap.relevantTypes order types)).Nodup :=
  (keysOf_keyed_filterMap_sublist order types).nodup hnd

theorem mem_relevantTypes_of {V : Type} (order : List String)
    (types : Assoc (V → Except String V)) (key : String) (f : V → Except String V)
    (hmem : key ∈ order) (hf : alookup types key = some f) :
    (key, f) ∈ SparseEnumap.relevantTypes order types := by
  unfold SparseEnumap.relevantTypes
  induction order with
  | nil => simp at hmem
  | cons a as ih =>
    by_cases hka : key = a
    · subst hka
      rw [keyed_filterMap_cons_some _ _ _ _ hf]
      exact List.mem_cons_self _ _
    · have hmem2 : key ∈ as := by
        rcases List.mem_cons.mp hmem with hh | hh
        · exact absurd hh hka
        · exact hh
      cases ha : alookup types a with
      | none =>
        rw [keyed_filterMap_cons_none _ _ _ ha]
        exact ih hmem2
      | some g =>
        rw [keyed_filterMap_cons_some _ _ _ _ ha]
        exact List.mem_cons_of_mem _ (ih hmem2)

/-- The `if types:` guard of the source is equivalent to running the cast on
the (then empty) relevant registry. -/
theorem casted_scrutinee {V : Type} (kindOf : V → String) (mapping : Assoc V)
    (types : Assoc (V → Except String V)) (order : List String) :
    (if types.isEmpty then (Except.ok [] : Except (Err V) (Assoc V))
     else typeCastItems kindOf mapping (SparseEnumap.relevantTypes order types))
      = typeCastItems kindOf mapping (SparseEnumap.relevantTypes order types) := by
  cases types with
  | nil =>
    rw [relevantTypes_nil_types order]
    rfl
  | cons p ts =>
    rw [if_neg]
    simp

/-- A failing cast propagates out of `SparseEnumap._make_casted_mapping`
before the validity check runs. -/
theorem sparse_casted_error_cast {V : Type} (noneV : V) (kindOf : V → String)
    (types : Assoc (V → Except String V)) (order : List String) (defaults : Assoc V)
    (names : List String) (values : List V) (named : Assoc V) (e : Err V)
    (hne : defaults ≠ [])
    (hcast : typeCastItems kindOf
        (SparseEnumap.fillFromDefaults defaults names (mergeArgs names values named))
        (SparseEnumap.relevantTypes order types) = .error e) :
    SparseEnumap.makeCastedMapping noneV kindOf types order defaults names values named
      = .error e := by
  have hie : defaults.isEmpty = false := isEmpty_false_of_ne_nil defaults hne
  simp only [SparseEnumap.makeCastedMapping, hie, Bool.false_eq_true, if_false]
  rw [casted_scrutinee, hcast]

/-- Successful sparse casted construction: the result is the defaults dict
updated by the filled mapping updated by the casted items. -/
theorem sparse_casted_ok_char {V : Type} (noneV : V) (kindOf : V → String)
    (types : Assoc (V → Except String V)) (order : List String) (defaults : Assoc V)
    (names : List String) (values : List V) (named : Assoc V) (casted : Assoc V)
    (hne : defaults ≠ [])
    (hcast : typeCastItems kindOf
        (SparseEnumap.fillFromDefaults defaults names (mergeArgs names values named))
        (SparseEnumap.relevantTypes order types) = .ok casted)
    (hcond : (keysOf (mergeArgs names values named)).all (fun k => names.contains k) = true)
    (hlen : values.length ≤ names.length) :
    SparseEnumap.makeCastedMapping noneV kindOf types order defaults names values named
      = .ok (dictUpdate defaults
          (dictUpdate (SparseEnumap.fillFromDefaults defaults names
            (mergeArgs names values named)) casted)) := by
  have hie : defaults.isEmpty = false := isEmpty_false_of_ne_nil defaults hne
  simp only [SparseEnumap.makeCastedMapping, hie, Bool.false_eq_true, if_false]
  rw [casted_scrutinee, hcast]
  show (if _ ∧ _ then _ else _) = _
  rw [if_pos ⟨hcond, hlen⟩]

/-- Too many positional values make the sparse casted construction fail with
the counting error, provided the cast step itself did not raise first. -/
theorem sparse_casted_tooMany_char {V : Type} (noneV : V) (kindOf : V → String)
    (types : Assoc (V → Except String V)) (order : List String) (defaults : Assoc V)
    (names : List String) (values : List V) (named : Assoc V) (casted : Assoc V)
    (hne : defaults ≠ [])
    (hcast : typeCastItems kindOf
        (SparseEnumap.fillFromDefaults defaults names (mergeArgs names values named))
        (SparseEnumap.relevantTypes order types) = .ok casted)
    (h : names.length < values.length) :
    SparseEnumap.makeCastedMapping noneV kindOf types order defaults names values named
      = .error (.tooManyArguments names.length values.length) := by
  have hie : defaults.isEmpty = false := isEmpty_false_of_ne_nil defaults hne
  simp only [SparseEnumap.makeCastedMapping, hie, Bool.false_eq_true, if_false]
  rw [casted_scrutinee, hcast]
  show (if _ ∧ _ then _ else _) = _
  rw [if_neg (fun hc => absurd hc.2 (Nat.not_le_of_lt h))]
  unfold SparseEnumap.raiseInvalidArgs
  rw [if_pos h]

/-- An invalid supplied key makes the sparse casted construction fail with the
invalid-keys error, provided the cast step itself did not raise first. -/
theorem sparse_casted_invalid_char {V : Type} (noneV : V) (kindOf : V → String)
    (types : Assoc (V → Except String V)) (order : List String) (defaults : Assoc V)
    (names : List String) (values : List V) (named : Assoc V) (casted : Assoc V)
    (hne : defaults ≠ [])
    (hcast : typeCastItems kindOf
        (SparseEnumap.fillFromDefaults defaults names (mergeArgs names values named))
        (SparseEnumap.relevantTypes order types) = .ok casted)
    (hlen : values.length ≤ names.length)
    (hbad : ¬ (keysOf (mergeArgs names values named)).all (fun k => names.contains k) = true) :
    SparseEnumap.makeCastedMapping noneV kindOf types order defaults names values named
      = .error (.invalidKeys (invalidOf names (dictUpdate defaults
          (dictUpdate (SparseEnumap.fillFromDefaults defaults names
            (mergeArgs names values named)) casted)))) := by
  have hie : defaults.isEmpty = false := isEmpty_false_of_ne_nil defaults hne
  simp only [SparseEnumap.makeCastedMapping, hie, Bool.false_eq_true, if_false]
  rw [casted_scrutinee, hcast]
  show (if _ ∧ _ then _ else _) = _
  rw [if_neg (fun hc => absurd hc.1 hbad)]
  unfold SparseEnumap.raiseInvalidArgs
  rw [if_neg (Nat.not_lt_of_le hlen)]

/-- The post-cast validity condition of the sparse casted path agrees with the
key-set check of the sparse checked path. -/
theorem sparse_cond_iff_sameKeySet {V : Type} (defaults : Assoc V)
    (names : List String) (values : List V) (named : Assoc V) (hnd : names.Nodup)
    (hcovd : ∀ n ∈ names, hasKey defaults n = true) :
    ((keysOf (mergeArgs names values named)).all (fun k => names.contains k) = true)
      ↔ sameKeySet (SparseEnumap.fillFromDefaults defaults names
          (mergeArgs names values named)) names = true := by
  rw [List.all_eq_true]
  constructor
  · intro h
    apply sparse_sameKeySet_of defaults names values named hnd hcovd
    intro k hk
    have hkm : k ∈ keysOf (mergeArgs names values named) :=
      (mem_keysOf_mergeArgs names values named k).mpr (Or.inr hk)
    exact (contains_iff_mem names k).mp (h k hkm)
  · intro h k hk
    rw [contains_iff_mem]
    have hfk : k ∈ keysOf (SparseEnumap.fillFromDefaults defaults names
        (mergeArgs names values named)) := by
      rw [← hasKey_iff_mem_keysOf]
      unfold SparseEnumap.fillFromDefaults
      rw [hasKey_dictUpdate, Bool.or_eq_true]
      left
      exact (hasKey_iff_mem_keysOf _ k).mpr hk
    exact ((sameKeySet_iff _ names).mp h).2 k hfk

/-- Outside the declared names, the final sparse casted mapping holds exactly
the invalid supplied keys of the filled mapping: the defaults and the casted
entries only concern declared names. -/
theorem invalidOf_casted_final_eq {V : Type} (defaults : Assoc V)
    (names : List String) (values : List V) (named : Assoc V) (casted : Assoc V)
    (hdef : keysOf defaults = names)
    (hcasted : ∀ k ∈ keysOf casted, k ∈ names) :
    invalidOf names (dictUpdate defaults
        (dictUpdate (SparseEnumap.fillFromDefaults defaults names
          (mergeArgs names values named)) casted))
      = invalidOf names (SparseEnumap.fillFromDefaults defaults names
          (mergeArgs names values named)) := by
  apply Finset.ext
  intro k
  unfold invalidOf
  rw [List.mem_toFinset, List.mem_toFinset, List.mem_filter, List.mem_filter]
  constructor
  · rintro ⟨hmem, hnotin⟩
    refine ⟨?_, hnotin⟩
    have hnn : k ∉ names := by
      intro hk
      rw [(contains_iff_mem names k).mpr hk] at hnotin
      simp at hnotin
    rw [← hasKey_iff_mem_keysOf] at hmem
    rw [hasKey_dictUpdate, Bool.or_eq_true, hasKey_dictUpdate, Bool.or_eq_true] at hmem
    rcases hmem with hmem | hmem
    · exfalso
      rw [hasKey_iff_mem_keysOf, hdef] at hmem
      exact hnn hmem
    · rcases hmem with hmem | hmem
      · rw [hasKey_iff_mem_keysOf] at hmem
        exact hmem
      · exfalso
        rw [hasKey_iff_mem_keysOf] at hmem
        exact hnn (hcasted k hmem)
  · rintro ⟨hmem, hnotin⟩
    refine ⟨?_, hnotin⟩
    rw [← hasKey_iff_mem_keysOf] at hmem ⊢
    rw [hasKey_dictUpdate, hasKey_dictUpdate, hmem]
    simp

/-! ### Claim theorems -/

/-- C9: for every schema and argument list on which both calls succeed,
`schema.map(*values, **named)` and `schema.tuple(*values, **named)` (the
record operation) associate exactly the same value to each field name: for
every declared name, the ordered map's entry at that name equals the record's
field at that name's position.  The two outputs differ only in shape. -/
theorem C9_map_tuple_agree {V : Type} (names : List String) (values : List V)
    (named : Assoc V) (m : Assoc V) (t : List V)
    (hnd : names.Nodup) (hkwnd : (keysOf named).Nodup)
    (hmap : Enumap.map names values named = .ok m)
    (htup : Enumap.tuple names values named = .ok t)
    (i : Nat) (hi : i < names.length) :
    alookup m (names.get ⟨i, hi⟩) = t.get? i := by
  unfold Enumap.map at hmap
  rw [exceptMap_ok_iff] at hmap
  obtain ⟨m0, hm0, rfl⟩ := hmap
  obtain ⟨m1, hm1, rfl⟩ := strict_tuple_ok_char names values named t hnd hkwnd htup
  rw [hm0] at hm1
  cases hm1
  obtain ⟨hsk, hlen, hmeq⟩ := (strict_checked_ok_iff names values named m0).mp hm0
  subst hmeq
  have hcov : ∀ n ∈ names, hasKey (mergeArgs names values named) n = true :=
    fun n hn => (hasKey_iff_mem_keysOf _ n).mpr (((sameKeySet_iff _ _).mp hsk).1 n hn)
  rw [alookup_readout names _ hnd, if_pos (List.get_mem names i hi)]
  rw [get?_tupleOut names _ hcov i, List.get?_eq_get hi]
  rfl

/-- C9 witness: names `b c e`, values `1 2 3`; the map entry at `c` equals
field 1 of the record. -/
theorem C9_witness :
    alookup [("b", (1 : Nat)), ("c", 2), ("e", 3)] "c" = [1, 2, 3].get? 1 :=
  C9_map_tuple_agree ["b", "c", "e"] [1, 2, 3] [] [("b", 1), ("c", 2), ("e", 3)]
    [1, 2, 3] (by decide) (by decide) (by decide) (by decide) 1 (by decide)

/-- C1: on both strict and sparse schemas, when a field is supplied both
positionally and by keyword, every construction binds the keyword value, and
the overlap raises no error; on sparse schemas a positionally supplied value
takes precedence over a registered default, and the registered default is
bound only when the field was supplied neither positionally nor by keyword.
Stated for the `map` and `tuple` (record) operations; the casted variants
resolve through the same checked mappings. -/
theorem C1_merge_precedence {V : Type} (noneV : V) (names : List String)
    (values : List V) (named : Assoc V) (defaults : Assoc V)
    (i : Nat) (hi : i < names.length)
    (hnd : names.Nodup) (hkwnd : (keysOf named).Nodup) :
    (∀ m w, Enumap.map names values named = .ok m →
      alookup named (names.get ⟨i, hi⟩) = some w →
      alookup m (names.get ⟨i, hi⟩) = some w)
    ∧ (∀ t w, Enumap.tuple names values named = .ok t →
      alookup named (names.get ⟨i, hi⟩) = some w →
      t.get? i = some w)
    ∧ (keysOf defaults = names →
      ∀ m w, SparseEnumap.map noneV defaults names values named = .ok m →
      alookup named (names.get ⟨i, hi⟩) = some w →
      alookup m (names.get ⟨i, hi⟩) = some w)
    ∧ (keysOf defaults = names →
      ∀ t w, SparseEnumap.tuple noneV defaults names values named = .ok t →
      alookup named (names.get ⟨i, hi⟩) = some w →
      t.get? i = some w)
    ∧ (keysOf defaults = names →
      ∀ m, SparseEnumap.map noneV defaults names values named = .ok m →
      alookup named (names.get ⟨i, hi⟩) = none → i < values.length →
      alookup m (names.get ⟨i, hi⟩) = values.get? i)
    ∧ (keysOf defaults = names →
      ∀ m, SparseEnumap.map noneV defaults names values named = .ok m →
      alookup named (names.get ⟨i, hi⟩) = none → values.length ≤ i →
      alookup m (names.get ⟨i, hi⟩) = alookup defaults (names.get ⟨i, hi⟩))
    ∧ ((∀ k ∈ keysOf named, k ∈ names) → values.length ≤ names.length →
      (∀ j, (hj : j < names.length) → values.length ≤ j →
        names.get ⟨j, hj⟩ ∈ keysOf named) →
      ∃ m, Enumap.map names values named = .ok m) := by
  have hnenil : names ≠ [] := by
    intro h
    rw [h] at hi
    simp at hi
  have hdne : ∀ (hdef : keysOf defaults = names), defaults ≠ [] := by
    intro hdef h
    subst h
    exact hnenil hdef.symm
  refine ⟨?_, ?_, ?_, ?_, ?_, ?_, ?_⟩
  · intro m w hmap hw
    unfold Enumap.map at hmap
    rw [exceptMap_ok_iff] at hmap
    obtain ⟨m0, hm0, rfl⟩ := hmap
    obtain ⟨hsk, hlen, hmeq⟩ := (strict_checked_ok_iff names values named m0).mp hm0
    subst hmeq
    rw [alookup_readout names _ hnd, if_pos (List.get_mem names i hi)]
    rw [alookup_mergeArgs_kw names values named _ hkwnd
      ((alookup_isSome_iff named _).mp (by rw [hw]; rfl))]
    exact hw
  · intro t w htup hw
    obtain ⟨m0, hm0, rfl⟩ := strict_tuple_ok_char names values named t hnd hkwnd htup
    obtain ⟨hsk, hlen, hmeq⟩ := (strict_checked_ok_iff names values named m0).mp hm0
    subst hmeq
    have hcov : ∀ n ∈ names, hasKey (mergeArgs names values named) n = true :=
      fun n hn => (hasKey_iff_mem_keysOf _ n).mpr (((sameKeySet_iff _ _).mp hsk).1 n hn)
    rw [get?_tupleOut names _ hcov i, List.get?_eq_get hi]
    show alookup (mergeArgs names values named) (names.get ⟨i, hi⟩) = some w
    rw [alookup_mergeArgs_kw names values named _ hkwnd
      ((alookup_isSome_iff named _).mp (by rw [hw]; rfl))]
    exact hw
  · intro hdef m w hmap hw
    unfold SparseEnumap.map at hmap
    rw [exceptMap_ok_iff] at hmap
    obtain ⟨m0, hm0, rfl⟩ := hmap
    obtain ⟨hsk, hlen, hmeq⟩ :=
      (sparse_checked_ok_iff noneV defaults names values named m0 (hdne hdef)).mp hm0
    subst hmeq
    rw [alookup_readout names _ hnd, if_pos (List.get_mem names i hi)]
    rw [sparse_filled_kw defaults names values named hnd hkwnd _
      ((alookup_isSome_iff named _).mp (by rw [hw]; rfl))]
    exact hw
  · intro hdef t w htup hw
    obtain ⟨m0, hm0, rfl⟩ := sparse_tuple_ok_char noneV defaults names values named t
      (hdne hdef) hnd hkwnd htup
    obtain ⟨hsk, hlen, hmeq⟩ :=
      (sparse_checked_ok_iff noneV defaults names values named m0 (hdne hdef)).mp hm0
    subst hmeq
    have hcov : ∀ n ∈ names,
        hasKey (SparseEnumap.fillFromDefaults defaults names
          (mergeArgs names values named)) n = true :=
      fun n hn => (hasKey_iff_mem_keysOf _ n).mpr (((sameKeySet_iff _ _).mp hsk).1 n hn)
    rw [get?_tupleOut names _ hcov i, List.get?_eq_get hi]
    show alookup (SparseEnumap.fillFromDefaults defaults names
      (mergeArgs names values named)) (names.get ⟨i, hi⟩) = some w
    rw [sparse_filled_kw defaults names values named hnd hkwnd _
      ((alookup_isSome_iff named _).mp (by rw [hw]; rfl))]
    exact hw
  · intro hdef m hmap hnkw hlt
    unfold SparseEnumap.map at hmap
    rw [exceptMap_ok_iff] at hmap
    obtain ⟨m0, hm0, rfl⟩ := hmap
    obtain ⟨hsk, hlen, hmeq⟩ :=
      (sparse_checked_ok_iff noneV defaults names values named m0 (hdne hdef)).mp hm0
    subst hmeq
    rw [alookup_readout names _ hnd, if_pos (List.get_mem names i hi)]
    exact sparse_filled_pos defaults names values named hnd i hi hnkw hlt
  · intro hdef m hmap hnkw hge
    unfold SparseEnumap.map at hmap
    rw [exceptMap_ok_iff] at hmap
    obtain ⟨m0, hm0, rfl⟩ := hmap
    obtain ⟨hsk, hlen, hmeq⟩ :=
      (sparse_checked_ok_iff noneV defaults names values named m0 (hdne hdef)).mp hm0
    subst hmeq
    rw [alookup_readout names _ hnd, if_pos (List.get_mem names i hi)]
    exact sparse_filled_default defaults names values named hnd i hi hnkw hge
  · intro hkw hlen hcov
    refine ⟨readout names (mergeArgs names values named), ?_⟩
    unfold Enumap.map
    rw [(strict_checked_ok_iff names values named _).mpr
      ⟨strict_sameKeySet_of names values named hnd hkw hcov, hlen, rfl⟩]
    rfl

/-- C1 witness: names `a b`, values `1 2`, keyword `b := 20`, defaults
`a := 100, b := 200`; the keyword value 20 is bound at `b` even though `b` was
also supplied positionally (value 2) and has a default (200). -/
theorem C1_witness :
    alookup [("a", (1 : Nat)), ("b", 20)] "b" = some 20 :=
  (C1_merge_precedence 0 ["a", "b"] [1, 2] [("b", 20)] [("a", 100), ("b", 200)]
    1 (by decide) (by decide) (by decide)).1
    [("a", 1), ("b", 20)] 20 (by decide) (by decide)

/-- C2: a sparse construction call with valid keyword keys and at most
`len(names)` positional values succeeds (missing fields are not an error),
and every field absent from the merged positional+keyword set is bound to its
entry in the defaults registry; the registry built by
`SparseEnumap.defaults()` holds the absence marker `None` for every field
without a declared default, so such fields surface as `None`. -/
theorem C2_sparse_fill {V : Type} (noneV : V) (names : List String)
    (values : List V) (named : Assoc V) (defaults : Assoc V)
    (hnd : names.Nodup) (hkwnd : (keysOf named).Nodup)
    (hdef : keysOf defaults = names)
    (hkw : ∀ k ∈ keysOf named, k ∈ names)
    (hlen : values.length ≤ names.length)
    (hnenil : names ≠ []) :
    (∃ m, SparseEnumap.map noneV defaults names values named = .ok m)
    ∧ (∃ t, SparseEnumap.tuple noneV defaults names values named = .ok t)
    ∧ (∀ m, SparseEnumap.map noneV defaults names values named = .ok m →
        ∀ i, (hi : i < names.length) → values.length ≤ i →
        alookup named (names.get ⟨i, hi⟩) = none →
        alookup m (names.get ⟨i, hi⟩) = alookup defaults (names.get ⟨i, hi⟩))
    ∧ (∀ (declared d : Assoc V), (∀ k ∈ keysOf declared, k ∈ names) →
        SparseEnumap.defaultsInit noneV names declared = .ok d →
        ∀ i, (hi : i < names.length) →
        alookup declared (names.get ⟨i, hi⟩) = none →
        alookup d (names.get ⟨i, hi⟩) = some noneV) := by
  have hdne : defaults ≠ [] := by
    intro h
    subst h
    exact hnenil hdef.symm
  have hcovd : ∀ n ∈ names, hasKey defaults n = true := cover_of_keysOf_eq defaults names hdef
  have hok : SparseEnumap.makeCheckedMapping noneV defaults names values named
      = .ok (SparseEnumap.fillFromDefaults defaults names (mergeArgs names values named)) :=
    (sparse_checked_ok_iff noneV defaults names values named _ hdne).mpr
      ⟨sparse_sameKeySet_of defaults names values named hnd hcovd hkw, hlen, rfl⟩
  refine ⟨?_, ?_, ?_, ?_⟩
  · refine ⟨readout names (SparseEnumap.fillFromDefaults defaults names
      (mergeArgs names values named)), ?_⟩
    unfold SparseEnumap.map
    rw [hok]
    rfl
  · cases hnt : namedtupleNew names values named with
    | some t0 =>
      refine ⟨t0, ?_⟩
      unfold SparseEnumap.tuple
      rw [hnt]
    | none =>
      refine ⟨tupleOut names (SparseEnumap.fillFromDefaults defaults names
        (mergeArgs names values named)), ?_⟩
      unfold SparseEnumap.tuple
      rw [hnt, hok]
      rfl
  · intro m hmap i hi hge hnkw
    unfold SparseEnumap.map at hmap
    rw [exceptMap_ok_iff] at hmap
    obtain ⟨m0, hm0, rfl⟩ := hmap
    obtain ⟨hsk, _, hmeq⟩ :=
      (sparse_checked_ok_iff noneV defaults names values named m0 hdne).mp hm0
    subst hmeq
    rw [alookup_readout names _ hnd, if_pos (List.get_mem names i hi)]
    exact sparse_filled_default defaults names values named hnd i hi hnkw hge
  · intro declared d hdecl hinit i hi hnone
    unfold SparseEnumap.defaultsInit Enumap.map at hinit
    rw [exceptMap_ok_iff] at hinit
    obtain ⟨m0, hm0, rfl⟩ := hinit
    obtain ⟨hsk, _, hmeq⟩ :=
      (strict_checked_ok_iff names (List.replicate names.length noneV) declared m0).mp hm0
    subst hmeq
    rw [alookup_readout names _ hnd, if_pos (List.get_mem names i hi)]
    rw [alookup_mergeArgs_pos names _ declared hnd i hi hnone]
    rw [List.get?_eq_get (show i < (List.replicate names.length noneV).length by
      rw [List.length_replicate]; exact hi)]
    rw [List.get_replicate]

/-- C2 witness: the spec example — names `b c d e`, defaults `c = WONK`
(overridden in the call), `d = 0`, no defaults for `b` and `e`; the call
`record("1", "3", c="2.2")` binds `d` to its default `0` and `e` to the
absence marker `None`. -/
theorem C2_witness :
    alookup [("b", PV.str "1"), ("c", PV.str "2.2"), ("d", PV.int 0), ("e", PV.none)] "d"
      = some (PV.int 0)
    ∧ alookup [("b", PV.str "1"), ("c", PV.str "2.2"), ("d", PV.int 0), ("e", PV.none)] "e"
      = some PV.none := by
  have h := C2_sparse_fill PV.none ["b", "c", "d", "e"] [PV.str "1", PV.str "3"]
    [("c", PV.str "2.2")]
    [("b", PV.none), ("c", PV.str "WONK"), ("d", PV.int 0), ("e", PV.none)]
    (by decide) (by decide) (by decide) (by decide) (by decide) (by decide)
  exact ⟨h.2.2.1 _ (by decide) 2 (by decide) (by decide) (by decide),
    h.2.2.1 _ (by decide) 3 (by decide) (by decide) (by decide)⟩

/-- C10: `set_defaults` resolves its arguments through the sparse merge
against the current defaults registry, so a later call does not clear earlier
defaults: every field not named in the call keeps its previously registered
default (it is not reset to the absence marker), the registry keeps covering
exactly the declared names, and only the fields supplied in the call receive
new default values (keyword first, then positional). -/
theorem C10_setDefaults_preserves {V : Type} (noneV : V) (old : Assoc V)
    (names : List String) (values : List V) (named : Assoc V) (newD : Assoc V)
    (hnd : names.Nodup) (hkwnd : (keysOf named).Nodup)
    (hold : keysOf old = names) (hnenil : names ≠ [])
    (hset : SparseEnumap.setDefaults noneV old names values named = .ok newD) :
    (∀ i, (hi : i < names.length) → values.length ≤ i →
      alookup named (names.get ⟨i, hi⟩) = none →
      alookup newD (names.get ⟨i, hi⟩) = alookup old (names.get ⟨i, hi⟩))
    ∧ keysOf newD = names
    ∧ (∀ i, (hi : i < names.length) → ∀ w,
      alookup named (names.get ⟨i, hi⟩) = some w →
      alookup newD (names.get ⟨i, hi⟩) = some w)
    ∧ (∀ i, (hi : i < names.length) →
      alookup named (names.get ⟨i, hi⟩) = none → i < values.length →
      alookup newD (names.get ⟨i, hi⟩) = values.get? i) := by
  have hdne : old ≠ [] := by
    intro h
    subst h
    exact hnenil hold.symm
  unfold SparseEnumap.setDefaults SparseEnumap.map at hset
  rw [exceptMap_ok_iff] at hset
  obtain ⟨m0, hm0, rfl⟩ := hset
  obtain ⟨hsk, hlen, hmeq⟩ :=
    (sparse_checked_ok_iff noneV old names values named m0 hdne).mp hm0
  subst hmeq
  have hcov : ∀ n ∈ names,
      hasKey (SparseEnumap.fillFromDefaults old names (mergeArgs names values named)) n
        = true :=
    fun n hn => (hasKey_iff_mem_keysOf _ n).mpr (((sameKeySet_iff _ _).mp hsk).1 n hn)
  refine ⟨?_, ?_, ?_, ?_⟩
  · intro i hi hge hnkw
    rw [alookup_readout names _ hnd, if_pos (List.get_mem names i hi)]
    exact sparse_filled_default old names values named hnd i hi hnkw hge
  · exact keysOf_readout_of_cover names _ hcov
  · intro i hi w hw
    rw [alookup_readout names _ hnd, if_pos (List.get_mem names i hi)]
    rw [sparse_filled_kw old names values named hnd hkwnd _
      ((alookup_isSome_iff named _).mp (by rw [hw]; rfl))]
    exact hw
  · intro i hi hnkw hlt
    rw [alookup_readout names _ hnd, if_pos (List.get_mem names i hi)]
    exact sparse_filled_pos old names values named hnd i hi hnkw hlt

/-- C10 witness: registry `b = None, c = WONK, d = 0, e = None`; the later
call `set_defaults(d=7)` leaves the earlier default of `c` in place. -/
theorem C10_witness :
    alookup [("b", PV.none), ("c", PV.str "WONK"), ("d", PV.int 7), ("e", PV.none)] "c"
      = some (PV.str "WONK") :=
  (C10_setDefaults_preserves PV.none
    [("b", PV.none), ("c", PV.str "WONK"), ("d", PV.int 0), ("e", PV.none)]
    ["b", "c", "d", "e"] [] [("d", PV.int 7)]
    [("b", PV.none), ("c", PV.str "WONK"), ("d", PV.int 7), ("e", PV.none)]
    (by decide) (by decide) (by decide) (by decide) (by decide)).1
    1 (by decide) (by decide) (by decide)

theorem validOrder_mem_iff {V : Type} (order present : List String)
    (types : Assoc (V → Except String V))
    (h : SparseEnumap.ValidOrder order present types) (k : String) :
    k ∈ order ↔ k ∈ present ∧ (alookup types k).isSome = true := by
  obtain ⟨_, h2, h3⟩ := h
  exact ⟨fun hk => h2 k hk, fun ⟨hp, ht⟩ => h3 k hp ht⟩

theorem namedtupleNew_none_tooMany {V : Type} (fields : List String) (values : List V)
    (named : Assoc V) (h : fields.length < values.length) :
    namedtupleNew fields values named = none := by
  unfold namedtupleNew
  rw [if_neg (fun hc => absurd hc.1 (Nat.not_le_of_lt h))]

/-- The strict casted path runs Resolve first: checked-mapping errors
propagate unchanged. -/
theorem strict_casted_of_checked_error {V : Type} (kindOf : V → String)
    (ts : List (String × (V → Except String V))) (names : List String)
    (values : List V) (named : Assoc V) (e : Err V)
    (h : Enumap.makeCheckedMapping names values named = .error e) :
    Enumap.makeCastedMapping kindOf ts names values named = .error e := by
  unfold Enumap.makeCastedMapping
  rw [h]

/-- C5 counterexample: sparse `map_casted` on the one-field schema `(a,)` with
`types = int` and the call `("x", "y")` — one positional value too many —
fails with a TypeCastError on field `a` (the sparse casted path casts before
it validates), not with TooManyArguments(expected=1, got=2) as the claim
states.  `["a"]` is the only enumeration of the supplied-and-typed key set,
so this behavior does not depend on the set iteration order. -/
theorem C5_counterexample :
    SparseEnumap.mapCasted PV.none pvKind [("a", pvToInt)] ["a"] [("a", PV.none)]
      ["a"] [PV.str "x", PV.str "y"] []
      = .error (.typeCastError "a" (some (PV.str "x")) "str" "invalid literal for int: x")
    ∧ SparseEnumap.mapCasted PV.none pvKind [("a", pvToInt)] ["a"] [("a", PV.none)]
      ["a"] [PV.str "x", PV.str "y"] []
      ≠ .error (.tooManyArguments 1 2)
    ∧ SparseEnumap.ValidOrder ["a"]
        (SparseEnumap.presentKeys ["a"] [PV.str "x", PV.str "y"] ([] : Assoc PV))
        [("a", pvToInt)] := by
  refine ⟨by decide, by decide, by decide⟩

/-- C5 amended: supplying strictly more positional values than declared names
fails with TooManyArguments carrying expected = `len(names)` and
got = `len(values)` for the strict map, tuple, map_casted and tuple_casted
operations and the sparse map and tuple operations; for the sparse casted
operations the same holds provided no cast of a supplied typed field raises —
when one does, the TypeCastError preempts the counting error (see the
counterexample). -/
theorem C5_amended {V : Type} (noneV : V) (kindOf : V → String)
    (stypes : List (String × (V → Except String V)))
    (types : Assoc (V → Except String V)) (order : List String)
    (defaults : Assoc V) (names : List String) (values : List V) (named : Assoc V)
    (hmany : names.length < values.length) :
    Enumap.map names values named
      = .error (.tooManyArguments names.length values.length)
    ∧ Enumap.tuple names values named
      = .error (.tooManyArguments names.length values.length)
    ∧ Enumap.mapCasted kindOf stypes names values named
      = .error (.tooManyArguments names.length values.length)
    ∧ Enumap.tupleCasted kindOf stypes names values named
      = .error (.tooManyArguments names.length values.length)
    ∧ SparseEnumap.map noneV defaults names values named
      = .error (.tooManyArguments names.length values.length)
    ∧ SparseEnumap.tuple noneV defaults names values named
      = .error (.tooManyArguments names.length values.length)
    ∧ (defaults ≠ [] → ∀ casted,
      typeCastItems kindOf
          (SparseEnumap.fillFromDefaults defaults names (mergeArgs names values named))
          (SparseEnumap.relevantTypes order types) = .ok casted →
      SparseEnumap.mapCasted noneV kindOf types order defaults names values named
        = .error (.tooManyArguments names.length values.length)
      ∧ SparseEnumap.tupleCasted noneV kindOf types order defaults names values named
        = .error (.tooManyArguments names.length values.length)) := by
  refine ⟨?_, ?_, ?_, ?_, ?_, ?_, ?_⟩
  · unfold Enumap.map
    rw [strict_checked_tooMany names values named hmany]
    rfl
  · unfold Enumap.tuple
    rw [namedtupleNew_none_tooMany names values named hmany,
      strict_checked_tooMany names values named hmany]
    rfl
  · unfold Enumap.mapCasted
    rw [strict_casted_of_checked_error kindOf stypes names values named _
      (strict_checked_tooMany names values named hmany)]
    rfl
  · unfold Enumap.tupleCasted
    rw [strict_casted_of_checked_error kindOf stypes names values named _
      (strict_checked_tooMany names values named hmany)]
    rfl
  · unfold SparseEnumap.map
    rw [sparse_checked_tooMany noneV defaults names values named hmany]
    rfl
  · unfold SparseEnumap.tuple
    rw [namedtupleNew_none_tooMany names values named hmany,
      sparse_checked_tooMany noneV defaults names values named hmany]
    rfl
  · intro hne casted hcast
    constructor
    · unfold SparseEnumap.mapCasted
      rw [sparse_casted_tooMany_char noneV kindOf types order defaults names values named
        casted hne hcast hmany]
      rfl
    · unfold SparseEnumap.tupleCasted
      rw [sparse_casted_tooMany_char noneV kindOf types order defaults names values named
        casted hne hcast hmany]
      rfl

/-- C5 witness: the test-suite shape — three declared names, four positional
values — reports `expected 3 arguments, got 4` for the strict map. -/
theorem C5_witness :
    Enumap.map ["a", "b", "c"] [(3 : Int), 4, 5, 6] []
      = .error (.tooManyArguments 3 4) :=
  (C5_amended (0 : Int) (fun _ => "int") [] [] [] [("a", 0), ("b", 0), ("c", 0)]
    ["a", "b", "c"] [3, 4, 5, 6] [] (by decide)).1

/-- C6 counterexample: sparse `map_casted` on schema `(a,)` with `types a=int`
and the call `("x", zz=1)` — an invalid keyword key `zz` and one supplied
value whose cast fails.  The call fails with a TypeCastError on `a`, not with
the key-mismatch error carrying `invalid = {zz}` that the claim requires: the
sparse casted path casts before it validates. -/
theorem C6_counterexample :
    SparseEnumap.mapCasted PV.none pvKind [("a", pvToInt)] ["a"] [("a", PV.none)]
      ["a"] [PV.str "x"] [("zz", PV.int 1)]
      = .error (.typeCastError "a" (some (PV.str "x")) "str" "invalid literal for int: x")
    ∧ SparseEnumap.mapCasted PV.none pvKind [("a", pvToInt)] ["a"] [("a", PV.none)]
      ["a"] [PV.str "x"] [("zz", PV.int 1)]
      ≠ .error (.invalidKeys {"zz"})
    ∧ SparseEnumap.ValidOrder ["a"]
        (SparseEnumap.presentKeys ["a"] [PV.str "x"] [("zz", PV.int 1)])
        [("a", pvToInt)] := by
  refine ⟨by decide, by decide, by decide⟩

/-- C6 amended: a construction call whose merged key set differs from the
declared names (and not by excess positionals) fails with the key-mismatch
error — the strict operations carry both the missing and the invalid sets
(each included even when empty), the sparse operations carry the invalid set
only — except that on the sparse casted operations this holds provided no
cast of a supplied typed field raises; when one does, the TypeCastError
preempts the mismatch error (see the counterexample). -/
theorem C6_amended {V : Type} (noneV : V) (kindOf : V → String)
    (stypes : List (String × (V → Except String V)))
    (types : Assoc (V → Except String V)) (order : List String)
    (defaults : Assoc V) (names : List String) (values : List V) (named : Assoc V)
    (hnd : names.Nodup) (hkwnd : (keysOf named).Nodup) :
    (values.length ≤ names.length →
      ¬ sameKeySet (mergeArgs names values named) names = true →
      Enumap.map names values named = .error (.schemaMismatch
          (missingOf names (mergeArgs names values named))
          (invalidOf names (mergeArgs names values named)))
      ∧ Enumap.tuple names values named = .error (.schemaMismatch
          (missingOf names (mergeArgs names values named))
          (invalidOf names (mergeArgs names values named)))
      ∧ Enumap.mapCasted kindOf stypes names values named = .error (.schemaMismatch
          (missingOf names (mergeArgs names values named))
          (invalidOf names (mergeArgs names values named)))
      ∧ Enumap.tupleCasted kindOf stypes names values named = .error (.schemaMismatch
          (missingOf names (mergeArgs names values named))
          (invalidOf names (mergeArgs names values named))))
    ∧ (keysOf defaults = names → names ≠ [] → values.length ≤ names.length →
      ¬ sameKeySet (SparseEnumap.fillFromDefaults defaults names
          (mergeArgs names values named)) names = true →
      SparseEnumap.map noneV defaults names values named
        = .error (.invalidKeys (invalidOf names (SparseEnumap.fillFromDefaults defaults
            names (mergeArgs names values named))))
      ∧ SparseEnumap.tuple noneV defaults names values named
        = .error (.invalidKeys (invalidOf names (SparseEnumap.fillFromDefaults defaults
            names (mergeArgs names values named)))))
    ∧ (keysOf defaults = names → names ≠ [] → (∀ k ∈ keysOf types, k ∈ names) →
      values.length ≤ names.length →
      ¬ sameKeySet (SparseEnumap.fillFromDefaults defaults names
          (mergeArgs names values named)) names = true →
      ∀ casted, typeCastItems kindOf
          (SparseEnumap.fillFromDefaults defaults names (mergeArgs names values named))
          (SparseEnumap.relevantTypes order types) = .ok casted →
      SparseEnumap.mapCasted noneV kindOf types order defaults names values named
        = .error (.invalidKeys (invalidOf names (SparseEnumap.fillFromDefaults defaults
            names (mergeArgs names values named))))
      ∧ SparseEnumap.tupleCasted noneV kindOf types order defaults names values named
        = .error (.invalidKeys (invalidOf names (SparseEnumap.fillFromDefaults defaults
            names (mergeArgs names values named))))) := by
  refine ⟨?_, ?_, ?_⟩
  · intro hlen hbad
    have hm := strict_checked_mismatch names values named hlen hbad
    refine ⟨?_, ?_, ?_, ?_⟩
    · unfold Enumap.map
      rw [hm]
      rfl
    · exact (strict_tuple_error_char names values named _ hnd hkwnd).mpr hm
    · unfold Enumap.mapCasted
      rw [strict_casted_of_checked_error kindOf stypes names values named _ hm]
      rfl
    · unfold Enumap.tupleCasted
      rw [strict_casted_of_checked_error kindOf stypes names values named _ hm]
      rfl
  · intro hdef hnenil hlen hbad
    have hdne : defaults ≠ [] := by
      intro h
      subst h
      exact hnenil hdef.symm
    have hm := sparse_checked_invalid noneV defaults names values named hdne hlen hbad
    constructor
    · unfold SparseEnumap.map
      rw [hm]
      rfl
    · exact (sparse_tuple_error_char noneV defaults names values named _
        hdne hnd hkwnd).mpr hm
  · intro hdef hnenil htypes hlen hbad casted hcast
    have hdne : defaults ≠ [] := by
      intro h
      subst h
      exact hnenil hdef.symm
    have hcovd : ∀ n ∈ names, hasKey defaults n = true :=
      cover_of_keysOf_eq defaults names hdef
    have hbadcond : ¬ (keysOf (mergeArgs names values named)).all
        (fun k => names.contains k) = true := by
      intro hc
      exact hbad ((sparse_cond_iff_sameKeySet defaults names values named hnd hcovd).mp hc)
    have hcasted : ∀ k ∈ keysOf casted, k ∈ names := by
      intro k hk
      rw [typeCastItems_ok_keysOf kindOf _ _ casted hcast] at hk
      obtain ⟨_, hsome⟩ := (mem_keysOf_relevantTypes order types k).mp hk
      exact htypes k ((alookup_isSome_iff types k).mp hsome)
    have hm := sparse_casted_invalid_char noneV kindOf types order defaults names values
      named casted hdne hcast hlen hbadcond
    rw [invalidOf_casted_final_eq defaults names values named casted hdef hcasted] at hm
    constructor
    · unfold SparseEnumap.mapCasted
      rw [hm]
      rfl
    · unfold SparseEnumap.tupleCasted
      rw [hm]
      rfl

/-- C6 witness: strict schema `b c e`, call `("1", "3")` — field `e` missing —
fails with the mismatch error carrying `missing = {e}` and the empty invalid
set, both included. -/
theorem C6_witness :
    Enumap.map ["b", "c", "e"] [PV.str "1", PV.str "3"] []
      = .error (.schemaMismatch
          (missingOf ["b", "c", "e"] (mergeArgs ["b", "c", "e"] [PV.str "1", PV.str "3"] []))
          (invalidOf ["b", "c", "e"] (mergeArgs ["b", "c", "e"] [PV.str "1", PV.str "3"] [])))
    ∧ missingOf ["b", "c", "e"] (mergeArgs ["b", "c", "e"] [PV.str "1", PV.str "3"]
        ([] : Assoc PV)) = {"e"}
    ∧ invalidOf ["b", "c", "e"] (mergeArgs ["b", "c", "e"] [PV.str "1", PV.str "3"]
        ([] : Assoc PV)) = ∅ :=
  ⟨((C6_amended PV.none pvKind [] [] [] [("b", PV.none), ("c", PV.none), ("e", PV.none)]
      ["b", "c", "e"] [PV.str "1", PV.str "3"] [] (by decide) (by decide)).1
      (by decide) (by decide)).1,
    by decide, by decide⟩

/-- Inversion of the sparse checked-mapping errors: either too many
positional values, or a key-set violation with the invalid-keys payload. -/
theorem sparse_checked_error_inv {V : Type} (noneV : V) (defaults : Assoc V)
    (names : List String) (values : List V) (named : Assoc V) (e : Err V)
    (hne : defaults ≠ [])
    (h : SparseEnumap.makeCheckedMapping noneV defaults names values named = .error e) :
    (names.length < values.length ∧ e = .tooManyArguments names.length values.length)
    ∨ (values.length ≤ names.length
       ∧ ¬ sameKeySet (SparseEnumap.fillFromDefaults defaults names
           (mergeArgs names values named)) names = true
       ∧ e = .invalidKeys (invalidOf names (SparseEnumap.fillFromDefaults defaults names
           (mergeArgs names values named)))) := by
  simp only [SparseEnumap.makeCheckedMapping] at h
  rw [if_neg (by rw [isEmpty_false_of_ne_nil defaults hne]; simp)] at h
  split at h
  · simp at h
  · rename_i hcond
    unfold SparseEnumap.raiseInvalidArgs at h
    split at h
    · rename_i hlt
      cases h
      exact Or.inl ⟨hlt, rfl⟩
    · rename_i hnlt
      have hlen : values.length ≤ names.length := Nat.le_of_not_lt hnlt
      cases h
      exact Or.inr ⟨hlen, fun hsk => hcond ⟨hsk, hlen⟩, rfl⟩

/-- C7 counterexample: sparse `tuple_casted` on schema `(a,)` with
`types a=int` and the call `("7.7", "8")` — too many positional values, and
the cast of the supplied value `"7.7"` raises.  The call fails with the
TypeCastError, not with the Resolve-stage TooManyArguments(1, 2) the claim
requires: the sparse casted path does not perform Resolve before Cast. -/
theorem C7_counterexample :
    SparseEnumap.tupleCasted PV.none pvKind [("a", pvToInt)] ["a"] [("a", PV.none)]
      ["a"] [PV.str "7.7", PV.str "8"] []
      = .error (.typeCastError "a" (some (PV.str "7.7")) "str"
          "invalid literal for int: 7.7")
    ∧ SparseEnumap.tupleCasted PV.none pvKind [("a", pvToInt)] ["a"] [("a", PV.none)]
      ["a"] [PV.str "7.7", PV.str "8"] []
      ≠ .error (.tooManyArguments 1 2)
    ∧ SparseEnumap.ValidOrder ["a"]
        (SparseEnumap.presentKeys ["a"] [PV.str "7.7", PV.str "8"] ([] : Assoc PV))
        [("a", pvToInt)] := by
  refine ⟨by decide, by decide, by decide⟩

/-- C7 amended: the strict casted operations perform Resolve before Cast and
re-raise exactly the Resolve-stage errors; the sparse casted operations
re-raise the Resolve-stage error provided no cast of a supplied typed field
raises — when one does, the TypeCastError preempts the Resolve-stage error
(see the counterexample). -/
theorem C7_amended {V : Type} (noneV : V) (kindOf : V → String)
    (stypes : List (String × (V → Except String V)))
    (types : Assoc (V → Except String V)) (order : List String)
    (defaults : Assoc V) (names : List String) (values : List V) (named : Assoc V)
    (hnd : names.Nodup) (hkwnd : (keysOf named).Nodup) :
    (∀ e, Enumap.makeCheckedMapping names values named = .error e →
      Enumap.mapCasted kindOf stypes names values named = .error e
      ∧ Enumap.tupleCasted kindOf stypes names values named = .error e)
    ∧ (keysOf defaults = names → names ≠ [] → (∀ k ∈ keysOf types, k ∈ names) →
      ∀ casted, typeCastItems kindOf
          (SparseEnumap.fillFromDefaults defaults names (mergeArgs names values named))
          (SparseEnumap.relevantTypes order types) = .ok casted →
      ∀ e, SparseEnumap.makeCheckedMapping noneV defaults names values named = .error e →
      SparseEnumap.mapCasted noneV kindOf types order defaults names values named
        = .error e
      ∧ SparseEnumap.tupleCasted noneV kindOf types order defaults names values named
        = .error e) := by
  constructor
  · intro e he
    have hm := strict_casted_of_checked_error kindOf stypes names values named e he
    constructor
    · unfold Enumap.mapCasted
      rw [hm]
      rfl
    · unfold Enumap.tupleCasted
      rw [hm]
      rfl
  · intro hdef hnenil htypes casted hcast e he
    have hdne : defaults ≠ [] := by
      intro h
      subst h
      exact hnenil hdef.symm
    have hcovd : ∀ n ∈ names, hasKey defaults n = true :=
      cover_of_keysOf_eq defaults names hdef
    have hcasted : ∀ k ∈ keysOf casted, k ∈ names := by
      intro k hk
      rw [typeCastItems_ok_keysOf kindOf _ _ casted hcast] at hk
      obtain ⟨_, hsome⟩ := (mem_keysOf_relevantTypes order types k).mp hk
      exact htypes k ((alookup_isSome_iff types k).mp hsome)
    rcases sparse_checked_error_inv noneV defaults names values named e hdne he with
      ⟨hlt, rfl⟩ | ⟨hlen, hbad, rfl⟩
    · have hm := sparse_casted_tooMany_char noneV kindOf types order defaults names values
        named casted hdne hcast hlt
      constructor
      · unfold SparseEnumap.mapCasted
        rw [hm]
        rfl
      · unfold SparseEnumap.tupleCasted
        rw [hm]
        rfl
    · have hbadcond : ¬ (keysOf (mergeArgs names values named)).all
          (fun k => names.contains k) = true := by
        intro hc
        exact hbad
          ((sparse_cond_iff_sameKeySet defaults names values named hnd hcovd).mp hc)
      have hm := sparse_casted_invalid_char noneV kindOf types order defaults names values
        named casted hdne hcast hlen hbadcond
      rw [invalidOf_casted_final_eq defaults names values named casted hdef hcasted] at hm
      constructor
      · unfold SparseEnumap.mapCasted
        rw [hm]
        rfl
      · unfold SparseEnumap.tupleCasted
        rw [hm]
        rfl

/-- C7 witness: strict schema `(a,)` with a type registered for `a` and the
call `(1, 2)` — the Resolve-stage counting error is re-raised unchanged by
both casted operations. -/
theorem C7_witness :
    Enumap.mapCasted pvKind [("a", pvToInt)] ["a"] [PV.int 1, PV.int 2] []
      = .error (.tooManyArguments 1 2)
    ∧ Enumap.tupleCasted pvKind [("a", pvToInt)] ["a"] [PV.int 1, PV.int 2] []
      = .error (.tooManyArguments 1 2) :=
  (C7_amended PV.none pvKind [("a", pvToInt)] [] [] [("a", PV.none)] ["a"]
    [PV.int 1, PV.int 2] [] (by decide) (by decide)).1
    (.tooManyArguments 1 2) (by decide)

/-- Inversion of the strict checked-mapping errors. -/
theorem strict_checked_error_inv {V : Type} (names : List String) (values : List V)
    (named : Assoc V) (e : Err V)
    (h : Enumap.makeCheckedMapping names values named = .error e) :
    (e = .tooManyArguments names.length values.length)
    ∨ (e = .schemaMismatch (missingOf names (mergeArgs names values named))
        (invalidOf names (mergeArgs names values named))) := by
  simp only [Enumap.makeCheckedMapping] at h
  split at h
  · simp at h
  · unfold Enumap.raiseInvalidArgs at h
    split at h
    · cases h
      exact Or.inl rfl
    · cases h
      exact Or.inr rfl

/-- Inversion of the strict casted-mapping flow. -/
theorem strict_casted_error_inv {V : Type} (kindOf : V → String)
    (stypes : List (String × (V → Except String V))) (names : List String)
    (values : List V) (named : Assoc V) (e : Err V)
    (h : Enumap.makeCastedMapping kindOf stypes names values named = .error e) :
    Enumap.makeCheckedMapping names values named = .error e
    ∨ (∃ m0, Enumap.makeCheckedMapping names values named = .ok m0
        ∧ typeCastItems kindOf m0 stypes = .error e) := by
  unfold Enumap.makeCastedMapping at h
  cases hchk : Enumap.makeCheckedMapping names values named with
  | error e0 =>
    simp only [hchk] at h
    cases h
    exact Or.inl rfl
  | ok m0 =>
    simp only [hchk] at h
    cases hcast : typeCastItems kindOf m0 stypes with
    | error e1 =>
      simp only [hcast] at h
      cases h
      exact Or.inr ⟨m0, rfl, hcast⟩
    | ok casted => simp [hcast] at h

/-- Inversion of the sparse casted-mapping errors: either the cast step
raised, or the error is one of the Resolve-stage payloads. -/
theorem sparse_casted_error_inv {V : Type} (noneV : V) (kindOf : V → String)
    (types : Assoc (V → Except String V)) (order : List String) (defaults : Assoc V)
    (names : List String) (values : List V) (named : Assoc V) (e : Err V)
    (hne : defaults ≠ [])
    (h : SparseEnumap.makeCastedMapping noneV kindOf types order defaults names values named
      = .error e) :
    typeCastItems kindOf
        (SparseEnumap.fillFromDefaults defaults names (mergeArgs names values named))
        (SparseEnumap.relevantTypes order types) = .error e
    ∨ (∃ a b, e = .tooManyArguments a b)
    ∨ (∃ s, e = .invalidKeys s) := by
  have hie : defaults.isEmpty = false := isEmpty_false_of_ne_nil defaults hne
  simp only [SparseEnumap.makeCastedMapping, hie, Bool.false_eq_true, if_false] at h
  rw [casted_scrutinee] at h
  cases hsc : typeCastItems kindOf
      (SparseEnumap.fillFromDefaults defaults names (mergeArgs names values named))
      (SparseEnumap.relevantTypes order types) with
  | error e0 =>
    simp only [hsc] at h
    cases h
    exact Or.inl rfl
  | ok casted =>
    simp only [hsc] at h
    split at h
    · simp at h
    · unfold SparseEnumap.raiseInvalidArgs at h
      split at h
      · cases h
        exact Or.inr (Or.inl ⟨_, _, rfl⟩)
      · cases h
        exact Or.inr (Or.inr ⟨_, rfl⟩)

/-- C4 counterexample: sparse schema `(a, b)`, both fields supplied with
values whose casts fail.  With the set iteration order `["b", "a"]` — a
legitimate enumeration of the supplied-and-typed key set, whose order Python
does not fix (string hashing is randomized) — the reported failing field is
`b`, not the schema-first failing field `a` that the claim requires. -/
theorem C4_counterexample :
    SparseEnumap.mapCasted PV.none pvKind [("a", pvToInt), ("b", pvToInt)] ["b", "a"]
      [("a", PV.none), ("b", PV.none)] ["a", "b"] [PV.str "x", PV.str "y"] []
      = .error (.typeCastError "b" (some (PV.str "y")) "str" "invalid literal for int: y")
    ∧ SparseEnumap.mapCasted PV.none pvKind [("a", pvToInt), ("b", pvToInt)] ["b", "a"]
      [("a", PV.none), ("b", PV.none)] ["a", "b"] [PV.str "x", PV.str "y"] []
      ≠ .error (.typeCastError "a" (some (PV.str "x")) "str" "invalid literal for int: x")
    ∧ SparseEnumap.ValidOrder ["b", "a"]
        (SparseEnumap.presentKeys ["a", "b"] [PV.str "x", PV.str "y"] ([] : Assoc PV))
        [("a", pvToInt), ("b", pvToInt)] := by
  refine ⟨by decide, by decide, by decide⟩

/-- C4 amended: a failing cast raises a TypeCastError carrying the field
name, the raw uncast value, that value's runtime kind, and the cause.  On
strict schemas the reported field is the first failing entry of the types
registry, and `set_types` keeps the registry in schema order (its key list is
a subsequence of the declared names); on sparse schemas the reported field is
the first failing entry in the iteration order of the supplied-and-typed key
set, which is not guaranteed to be schema order (see the counterexample). -/
theorem C4_amended {V : Type} (noneV : V) (kindOf : V → String)
    (stypes : List (String × (V → Except String V)))
    (types : Assoc (V → Except String V)) (order : List String)
    (defaults : Assoc V) (names : List String) (values : List V) (named : Assoc V)
    (k : String) (val : Option V) (kind cause : String) :
    (Enumap.mapCasted kindOf stypes names values named
        = .error (.typeCastError k val kind cause) →
      ∃ m0, Enumap.makeCheckedMapping names values named = .ok m0
        ∧ ∃ pre f post, stypes = pre ++ (k, f) :: post
          ∧ (∀ p ∈ pre, ∃ v w, alookup m0 p.1 = some v ∧ p.2 v = .ok w)
          ∧ ((∃ v, alookup m0 k = some v ∧ f v = .error cause
                ∧ val = some v ∧ kind = kindOf v)
             ∨ (alookup m0 k = none ∧ val = none ∧ kind = "NoneType")))
    ∧ (∀ {T : Type} (pos : List (Option T)) (nmd : Assoc (Option T)) (r : Assoc (Option T)),
      names.Nodup → names ≠ [] → Enumap.setTypes names pos nmd = .ok r →
      List.Sublist (keysOf r) names)
    ∧ (defaults ≠ [] →
      SparseEnumap.mapCasted noneV kindOf types order defaults names values named
        = .error (.typeCastError k val kind cause) →
      ∃ pre f post, SparseEnumap.relevantTypes order types = pre ++ (k, f) :: post
        ∧ (∀ p ∈ pre, ∃ v w,
            alookup (SparseEnumap.fillFromDefaults defaults names
              (mergeArgs names values named)) p.1 = some v ∧ p.2 v = .ok w)
        ∧ ((∃ v, alookup (SparseEnumap.fillFromDefaults defaults names
              (mergeArgs names values named)) k = some v ∧ f v = .error cause
              ∧ val = some v ∧ kind = kindOf v)
           ∨ (alookup (SparseEnumap.fillFromDefaults defaults names
              (mergeArgs names values named)) k = none
              ∧ val = none ∧ kind = "NoneType"))) := by
  refine ⟨?_, ?_, ?_⟩
  · intro h
    unfold Enumap.mapCasted at h
    rw [exceptMap_error_iff] at h
    rcases strict_casted_error_inv kindOf stypes names values named _ h with
      hchk | ⟨m0, hok, hcast⟩
    · rcases strict_checked_error_inv names values named _ hchk with hh | hh <;> cases hh
    · obtain ⟨pre, key, f, post, hsplit, hpre, hcase⟩ :=
        typeCastItems_error_split kindOf m0 stypes _ hcast
      rcases hcase with ⟨v, c, hv, hfv, heq⟩ | ⟨hv, heq⟩
      · cases heq
        exact ⟨m0, hok, pre, f, post, hsplit, hpre, Or.inl ⟨v, hv, hfv, rfl, rfl⟩⟩
      · cases heq
        exact ⟨m0, hok, pre, f, post, hsplit, hpre, Or.inr ⟨hv, rfl, rfl⟩⟩
  · intro T pos nmd r hnd hnenil hset
    unfold Enumap.setTypes at hset
    cases hsm : SparseEnumap.map (none : Option T)
        (names.map (fun n => (n, (none : Option T)))) names pos nmd with
    | error e0 => simp [hsm] at hset
    | ok stm =>
      simp only [hsm] at hset
      have hdne : names.map (fun n => (n, (none : Option T))) ≠ [] := by
        intro hh
        exact hnenil (List.map_eq_nil.mp hh)
      unfold SparseEnumap.map at hsm
      rw [exceptMap_ok_iff] at hsm
      obtain ⟨m0, hm0, rfl⟩ := hsm
      obtain ⟨hsk, _, hmeq⟩ := (sparse_checked_ok_iff _ _ names pos nmd m0 hdne).mp hm0
      subst hmeq
      have hcov : ∀ n ∈ names, hasKey (SparseEnumap.fillFromDefaults
          (names.map (fun n => (n, (none : Option T)))) names (mergeArgs names pos nmd)) n
          = true :=
        fun n hn => (hasKey_iff_mem_keysOf _ n).mpr (((sameKeySet_iff _ _).mp hsk).1 n hn)
      have hkeys : keysOf (readout names (SparseEnumap.fillFromDefaults
          (names.map (fun n => (n, (none : Option T)))) names (mergeArgs names pos nmd)))
          = names := keysOf_readout_of_cover names _ hcov
      unfold Enumap.map at hset
      rw [exceptMap_ok_iff] at hset
      obtain ⟨m1, hm1, rfl⟩ := hset
      obtain ⟨hsk1, _, hmeq1⟩ := (strict_checked_ok_iff _ pos nmd m1).mp hm1
      subst hmeq1
      have hcov1 : ∀ n ∈ keysOf (List.filter (fun p => p.2.isSome)
          (readout names (SparseEnumap.fillFromDefaults
            (names.map (fun n => (n, (none : Option T)))) names (mergeArgs names pos nmd)))),
          hasKey (mergeArgs (keysOf (List.filter (fun p => p.2.isSome)
            (readout names (SparseEnumap.fillFromDefaults
              (names.map (fun n => (n, (none : Option T)))) names
              (mergeArgs names pos nmd))))) pos nmd) n = true :=
        fun n hn => (hasKey_iff_mem_keysOf _ n).mpr (((sameKeySet_iff _ _).mp hsk1).1 n hn)
      rw [keysOf_readout_of_cover _ _ hcov1]
      have h1 : List.Sublist (keysOf (List.filter (fun p => p.2.isSome)
          (readout names (SparseEnumap.fillFromDefaults
            (names.map (fun n => (n, (none : Option T)))) names (mergeArgs names pos nmd)))))
          (keysOf (readout names (SparseEnumap.fillFromDefaults
            (names.map (fun n => (n, (none : Option T)))) names (mergeArgs names pos nmd)))) :=
        List.Sublist.map Prod.fst (List.filter_sublist _)
      rw [hkeys] at h1
      exact h1
  · intro hdne h
    unfold SparseEnumap.mapCasted at h
    rw [exceptMap_error_iff] at h
    rcases sparse_casted_error_inv noneV kindOf types order defaults names values named _
        hdne h with hcast | hrest
    · obtain ⟨pre, key, f, post, hsplit, hpre, hcase⟩ :=
        typeCastItems_error_split kindOf _ _ _ hcast
      rcases hcase with ⟨v, c, hv, hfv, heq⟩ | ⟨hv, heq⟩
      · cases heq
        exact ⟨pre, f, post, hsplit, hpre, Or.inl ⟨v, hv, hfv, rfl, rfl⟩⟩
      · cases heq
        exact ⟨pre, f, post, hsplit, hpre, Or.inr ⟨hv, rfl, rfl⟩⟩
    · rcases hrest with ⟨a, b, heq⟩ | ⟨s, heq⟩ <;> cases heq

/-- C4 witness: strict schema `(a, b)` with both casts failing; the error
reports `a` — the first failing entry of the schema-ordered registry — with
the raw value, its kind and the cause. -/
theorem C4_witness :
    ∃ m0, Enumap.makeCheckedMapping ["a", "b"] [PV.str "x", PV.str "y"] ([] : Assoc PV)
        = .ok m0
      ∧ ∃ pre f post,
        [("a", pvToInt), ("b", pvToInt)] = pre ++ ("a", f) :: post
        ∧ (∀ p ∈ pre, ∃ v w, alookup m0 p.1 = some v ∧ p.2 v = .ok w)
        ∧ ((∃ v, alookup m0 "a" = some v ∧ f v = .error "invalid literal for int: x"
              ∧ (some (PV.str "x") : Option PV) = some v ∧ "str" = pvKind v)
           ∨ (alookup m0 "a" = none ∧ (some (PV.str "x") : Option PV) = none
              ∧ "str" = "NoneType")) :=
  (C4_amended PV.none pvKind [("a", pvToInt), ("b", pvToInt)] [] [] [("a", PV.none)]
    ["a", "b"] [PV.str "x", PV.str "y"] [] "a" (some (PV.str "x")) "str"
    "invalid literal for int: x").1 (by decide)

/-- Inversion of a successful sparse casted construction. -/
theorem sparse_casted_ok_inv {V : Type} (noneV : V) (kindOf : V → String)
    (types : Assoc (V → Except String V)) (order : List String) (defaults : Assoc V)
    (names : List String) (values : List V) (named : Assoc V) (m0 : Assoc V)
    (hne : defaults ≠ [])
    (h : SparseEnumap.makeCastedMapping noneV kindOf types order defaults names values named
      = .ok m0) :
    ∃ casted, typeCastItems kindOf
        (SparseEnumap.fillFromDefaults defaults names (mergeArgs names values named))
        (SparseEnumap.relevantTypes order types) = .ok casted
      ∧ m0 = dictUpdate defaults
          (dictUpdate (SparseEnumap.fillFromDefaults defaults names
            (mergeArgs names values named)) casted) := by
  have hie : defaults.isEmpty = false := isEmpty_false_of_ne_nil defaults hne
  simp only [SparseEnumap.makeCastedMapping, hie, Bool.false_eq_true, if_false] at h
  rw [casted_scrutinee] at h
  cases hsc : typeCastItems kindOf
      (SparseEnumap.fillFromDefaults defaults names (mergeArgs names values named))
      (SparseEnumap.relevantTypes order types) with
  | error e0 =>
    simp only [hsc] at h
    simp at h
  | ok casted =>
    simp only [hsc] at h
    split at h
    · cases h
      exact ⟨casted, rfl, rfl⟩
    · unfold SparseEnumap.raiseInvalidArgs at h
      split at h <;> simp at h

/-- C8: the code evaluated at the failing input.  On the schema `(a, b)`, the
registration call `set_types(None, int)` (an explicit `None` entry for `a`,
to be excluded, and `int` for `b`) raises the KeyError
`expected 1 arguments, got 2`: after dropping the `None` entry the source
re-resolves the original two arguments against the one-name subset schema
`(b,)` and overflows it, instead of storing the registry `{b: int}`.  The
type entries are opaque values during registration, modelled here as `Nat`. -/
theorem C8_setTypes_failing_input :
    Enumap.setTypes ["a", "b"] [Option.none, some (0 : Nat)] []
      = .error (.tooManyArguments 1 2) := by decide

/-- C3: on a sparse schema, a field's cast function runs exactly when the
field was actually supplied (positionally or by keyword) and has a type
entry: a supplied typed field is bound to the cast of its supplied value
(keyword winning over positional), a supplied untyped field passes through
unchanged, and an unsupplied field is bound to its registry default
unchanged — never passed through its cast function, even when a type entry
exists for it. -/
theorem C3_sparse_cast_exactness {V : Type} (noneV : V) (kindOf : V → String)
    (types : Assoc (V → Except String V)) (order : List String)
    (defaults : Assoc V) (names : List String) (values : List V) (named : Assoc V)
    (m : Assoc V) (hnd : names.Nodup) (hkwnd : (keysOf named).Nodup)
    (hdef : keysOf defaults = names)
    (horder : SparseEnumap.ValidOrder order
      (SparseEnumap.presentKeys names values named) types)
    (hok : SparseEnumap.mapCasted noneV kindOf types order defaults names values named
      = .ok m)
    (i : Nat) (hi : i < names.length) :
    (∀ v f w, alookup named (names.get ⟨i, hi⟩) = some v →
      alookup types (names.get ⟨i, hi⟩) = some f → f v = .ok w →
      alookup m (names.get ⟨i, hi⟩) = some w)
    ∧ (∀ f v w, alookup named (names.get ⟨i, hi⟩) = none → i < values.length →
      alookup types (names.get ⟨i, hi⟩) = some f → values.get? i = some v →
      f v = .ok w → alookup m (names.get ⟨i, hi⟩) = some w)
    ∧ (∀ v, alookup types (names.get ⟨i, hi⟩) = none →
      alookup named (names.get ⟨i, hi⟩) = some v →
      alookup m (names.get ⟨i, hi⟩) = some v)
    ∧ (alookup types (names.get ⟨i, hi⟩) = none →
      alookup named (names.get ⟨i, hi⟩) = none → i < values.length →
      alookup m (names.get ⟨i, hi⟩) = values.get? i)
    ∧ (alookup named (names.get ⟨i, hi⟩) = none → values.length ≤ i →
      alookup m (names.get ⟨i, hi⟩) = alookup defaults (names.get ⟨i, hi⟩)) := by
  have hnenil : names ≠ [] := by
    intro h
    rw [h] at hi
    simp at hi
  have hdne : defaults ≠ [] := by
    intro h
    subst h
    exact hnenil hdef.symm
  have hcovd : ∀ n ∈ names, hasKey defaults n = true :=
    cover_of_keysOf_eq defaults names hdef
  unfold SparseEnumap.mapCasted at hok
  rw [exceptMap_ok_iff] at hok
  obtain ⟨m0, hm0, rfl⟩ := hok
  obtain ⟨casted, hcast, hm0eq⟩ := sparse_casted_ok_inv noneV kindOf types order defaults
    names values named m0 hdne hm0
  subst hm0eq
  have hmem : names.get ⟨i, hi⟩ ∈ names := List.get_mem names i hi
  have hfillnd : (keysOf (SparseEnumap.fillFromDefaults defaults names
      (mergeArgs names values named))).Nodup := by
    unfold SparseEnumap.fillFromDefaults
    exact nodup_keysOf_dictUpdate _ _ (nodup_keysOf_mergeArgs names values named hnd)
  have hcmnd : (keysOf (dictUpdate (SparseEnumap.fillFromDefaults defaults names
      (mergeArgs names values named)) casted)).Nodup :=
    nodup_keysOf_dictUpdate casted _ hfillnd
  have hfillcov : hasKey (SparseEnumap.fillFromDefaults defaults names
      (mergeArgs names values named)) (names.get ⟨i, hi⟩) = true :=
    sparse_filled_covers defaults names _ hnd hcovd _ hmem
  have hcmmem : names.get ⟨i, hi⟩ ∈ keysOf (dictUpdate (SparseEnumap.fillFromDefaults
      defaults names (mergeArgs names values named)) casted) := by
    rw [← hasKey_iff_mem_keysOf, hasKey_dictUpdate, hfillcov]
    rfl
  have hread : alookup (readout names (dictUpdate defaults
      (dictUpdate (SparseEnumap.fillFromDefaults defaults names
        (mergeArgs names values named)) casted))) (names.get ⟨i, hi⟩)
      = alookup (dictUpdate (SparseEnumap.fillFromDefaults defaults names
        (mergeArgs names values named)) casted) (names.get ⟨i, hi⟩) := by
    rw [alookup_readout names _ hnd, if_pos hmem]
    exact alookup_dictUpdate_mem _ defaults _ hcmnd hcmmem
  have hkeyscasted : keysOf casted = keysOf (SparseEnumap.relevantTypes order types) :=
    typeCastItems_ok_keysOf kindOf _ _ casted hcast
  have hrelnd : (keysOf (SparseEnumap.relevantTypes order types)).Nodup :=
    nodup_keysOf_relevantTypes order types horder.1
  refine ⟨?_, ?_, ?_, ?_, ?_⟩
  · intro v f w hv hf hw
    rw [hread]
    have hpres : names.get ⟨i, hi⟩ ∈ SparseEnumap.presentKeys names values named := by
      unfold SparseEnumap.presentKeys
      rw [← hasKey_iff_mem_keysOf, hasKey_mergeArgs, Bool.or_eq_true]
      right
      unfold hasKey
      rw [hv]
      rfl
    have hord : names.get ⟨i, hi⟩ ∈ order := horder.2.2 _ hpres (by rw [hf]; rfl)
    obtain ⟨v2, w2, hv2, hw2, hout⟩ := typeCastItems_ok_lookup kindOf _ _ casted hrelnd
      _ f (mem_relevantTypes_of order types _ f hord hf) hcast
    rw [sparse_filled_kw defaults names values named hnd hkwnd _
      ((alookup_isSome_iff named _).mp (by rw [hv]; rfl)), hv] at hv2
    injection hv2 with hveq
    subst hveq
    rw [hw] at hw2
    injection hw2 with hweq
    subst hweq
    rw [alookup_dictUpdate_mem casted _ _ (by rw [hkeyscasted]; exact hrelnd)
      (by rw [hkeyscasted]
          exact (mem_keysOf_relevantTypes order types _).mpr ⟨hord, by rw [hf]; rfl⟩)]
    exact hout
  · intro f v w hv hlt hf hgv hw
    rw [hread]
    have hpres : names.get ⟨i, hi⟩ ∈ SparseEnumap.presentKeys names values named := by
      unfold SparseEnumap.presentKeys
      rw [← hasKey_iff_mem_keysOf, hasKey_mergeArgs, Bool.or_eq_true]
      left
      unfold hasKey
      rw [alookup_zip_get names values hnd i hi, hgv]
      rfl
    have hord : names.get ⟨i, hi⟩ ∈ order := horder.2.2 _ hpres (by rw [hf]; rfl)
    obtain ⟨v2, w2, hv2, hw2, hout⟩ := typeCastItems_ok_lookup kindOf _ _ casted hrelnd
      _ f (mem_relevantTypes_of order types _ f hord hf) hcast
    rw [sparse_filled_pos defaults names values named hnd i hi hv hlt, hgv] at hv2
    injection hv2 with hveq
    subst hveq
    rw [hw] at hw2
    injection hw2 with hweq
    subst hweq
    rw [alookup_dictUpdate_mem casted _ _ (by rw [hkeyscasted]; exact hrelnd)
      (by rw [hkeyscasted]
          exact (mem_keysOf_relevantTypes order types _).mpr ⟨hord, by rw [hf]; rfl⟩)]
    exact hout
  · intro v ht hv
    rw [hread]
    have hnotrel : names.get ⟨i, hi⟩ ∉ keysOf casted := by
      rw [hkeyscasted]
      intro hmem2
      obtain ⟨_, hsome⟩ := (mem_keysOf_relevantTypes order types _).mp hmem2
      rw [ht] at hsome
      simp at hsome
    rw [alookup_dictUpdate_not_mem casted _ _ hnotrel]
    rw [sparse_filled_kw defaults names values named hnd hkwnd _
      ((alookup_isSome_iff named _).mp (by rw [hv]; rfl))]
    exact hv
  · intro ht hv hlt
    rw [hread]
    have hnotrel : names.get ⟨i, hi⟩ ∉ keysOf casted := by
      rw [hkeyscasted]
      intro hmem2
      obtain ⟨_, hsome⟩ := (mem_keysOf_relevantTypes order types _).mp hmem2
      rw [ht] at hsome
      simp at hsome
    rw [alookup_dictUpdate_not_mem casted _ _ hnotrel]
    exact sparse_filled_pos defaults names values named hnd i hi hv hlt
  · intro hv hge
    rw [hread]
    have hnotrel : names.get ⟨i, hi⟩ ∉ keysOf casted := by
      rw [hkeyscasted]
      intro hmem2
      obtain ⟨hord, _⟩ := (mem_keysOf_relevantTypes order types _).mp hmem2
      have hpres := (horder.2.1 _ hord).1
      unfold SparseEnumap.presentKeys at hpres
      rw [← hasKey_iff_mem_keysOf, hasKey_mergeArgs, Bool.or_eq_true] at hpres
      rcases hpres with hh | hh
      · unfold hasKey at hh
        rw [alookup_zip_get names values hnd i hi, List.get?_eq_none.mpr hge] at hh
        simp at hh
      · unfold hasKey at hh
        rw [hv] at hh
        simp at hh
    rw [alookup_dictUpdate_not_mem casted _ _ hnotrel]
    exact sparse_filled_default defaults names values named hnd i hi hv hge

/-- C3 witness: sparse schema `(a, e)`, both fields typed with `int`, default
`e = HOOP`, call `("7")`: the supplied field `a` is cast to the integer 7,
while the defaulted field `e` keeps `HOOP` uncast. -/
theorem C3_witness :
    alookup [("a", PV.int 7), ("e", PV.str "HOOP")] "a" = some (PV.int 7)
    ∧ alookup [("a", PV.int 7), ("e", PV.str "HOOP")] "e" = some (PV.str "HOOP") := by
  have h := C3_sparse_cast_exactness PV.none pvKind [("a", pvToInt), ("e", pvToInt)]
    ["a"] [("a", PV.none), ("e", PV.str "HOOP")] ["a", "e"] [PV.str "7"] []
    [("a", PV.int 7), ("e", PV.str "HOOP")] (by decide) (by decide) (by decide)
    (by decide) (by decide)
  exact ⟨(h 0 (by decide)).2.1 pvToInt (PV.str "7") (PV.int 7) (by decide) (by decide)
      rfl (by decide) (by decide),
    (h 1 (by decide)).2.2.2.2 (by decide) (by decide)⟩

end EnumapModel
